import Mathlib

/-! LRU cache (package `cache`): shallow embedding and verification.

The Go package keeps a `map[string]*list.Element` (the key index) next to a
`container/list` doubly linked list (the recency ordering).  This file embeds
the sequential behaviour of `NewLRUCache`, `Set`, `Get`, `Remove` and `Len`:

* a `*list.Element` is an address (`Nat`); the list owns the `Value` field of
  every element it ever allocated (`valueOf`) and the order in which the linked
  ones are chained (`order`, front first);
* `interface{}` values are the type `Any`; a failed type assertion or a nil
  dereference is a panic, which the embedding renders as `none`;
* the mutex is not part of the sequential model.
-/

namespace LRU

/-! ## Data model -/

/-- Dynamic values (`interface{}`): nil, a payload of the caller's type, or a boxed `Record`. -/
inductive Any (V : Type) where
  | nil : Any V
  | val : V → Any V
  | record : String → Any V → Any V
  deriving DecidableEq, Repr

/-- The struct `Record` of `cache.go`. -/
structure Record (V : Type) where
  Key : String
  Value : Any V
  deriving DecidableEq, Repr

/-- Boxing a `Record` into an `interface{}` (what `PushFront(record)` stores). -/
def Record.toAny {V : Type} (r : Record V) : Any V := Any.record r.Key r.Value

/-- The type assertion `x.(Record)`; `none` is the run-time panic. -/
def Any.asRecord {V : Type} : Any V → Option (Record V)
  | Any.record k v => some ⟨k, v⟩
  | _ => none

/-- The zero value `Record{}`. -/
def Record.zero {V : Type} : Record V := ⟨"", Any.nil⟩

/-- A `*list.Element`: the address of a list node. -/
abbrev Element := Nat

/-- The part of `container/list.List` the cache relies on. -/
structure GoList (V : Type) where
  /-- addresses of the linked elements, front first -/
  order : List Element
  /-- the `Value` field of each allocated element -/
  valueOf : Element → Any V
  /-- the next unused address -/
  fresh : Nat

namespace GoList

variable {V : Type}

/-- The call `list.New()`. -/
def New : GoList V := ⟨[], fun _ => Any.nil, 0⟩

/-- The method `Len`. -/
def Len (l : GoList V) : Int := (l.order.length : Int)

/-- The method `Front`: the first element, or nil. -/
def Front (l : GoList V) : Option Element := l.order.head?

/-- The method `Back`: the last element, or nil. -/
def Back (l : GoList V) : Option Element := l.order.getLast?

/-- The method `Remove`: unlinks `e` when `e.list == l`, otherwise does nothing. -/
def Remove (l : GoList V) (e : Element) : GoList V :=
  if e ∈ l.order then { l with order := l.order.erase e } else l

/-- The method `PushFront`: allocates a new element holding `v` and links it first. -/
def PushFront (l : GoList V) (v : Any V) : GoList V :=
  { order := l.fresh :: l.order
    valueOf := fun e => if e = l.fresh then v else l.valueOf e
    fresh := l.fresh + 1 }

/-- The method `MoveToFront`: nothing when `e.list != l` or `e` is already first. -/
def MoveToFront (l : GoList V) (e : Element) : GoList V :=
  if e ∉ l.order ∨ l.order.head? = some e then l
  else { l with order := e :: l.order.erase e }

end GoList

/-- Assignment `m[k] = v` on a Go map. -/
def mapInsert {α : Type} (m : String → Option α) (k : String) (v : α) : String → Option α :=
  fun k' => if k' = k then some v else m k'

/-- The builtin `delete(m, k)` on a Go map. -/
def mapDelete {α : Type} (m : String → Option α) (k : String) : String → Option α :=
  fun k' => if k' = k then none else m k'

/-- The struct `Cache` (without its mutex). -/
structure Cache (V : Type) where
  records : String → Option Element
  queue : GoList V
  capacity : Int

variable {V : Type}

/-- The constructor `NewLRUCache`. -/
def NewLRUCache (capacity : Int) : Cache V :=
  { capacity := capacity
    records := fun _ => none
    queue := GoList.New }

namespace Cache

/-- The last two statements of `Set`: `c.queue.PushFront(record)` and
`c.records[key] = c.queue.Front()`. -/
def pushRecord (c : Cache V) (key : String) (record : Record V) : Option (Cache V) :=
  let q := c.queue.PushFront record.toAny
  match q.Front with
  | some front => some { c with queue := q, records := mapInsert c.records key front }
  | none => none

/-- The method `Set`. -/
def Set (c : Cache V) (key : String) (value : Any V) : Option (Cache V) :=
  let record : Record V := ⟨key, value⟩
  match c.records key with
  | some val => pushRecord { c with queue := c.queue.Remove val } key record
  | none =>
    if c.queue.Len = c.capacity then
      match c.queue.Back with
      | none => none
      | some back =>
        match (c.queue.valueOf back).asRecord with
        | none => none
        | some backRecord =>
          pushRecord
            { c with records := mapDelete c.records backRecord.Key
                     queue := c.queue.Remove back } key record
    else pushRecord c key record

/-- The method `Get`: the returned pair together with the cache afterwards. -/
def Get (c : Cache V) (key : String) : Option ((Record V × Bool) × Cache V) :=
  match c.records key with
  | some val =>
    match (c.queue.valueOf val).asRecord with
    | none => none
    | some record => some ((record, true), { c with queue := c.queue.MoveToFront val })
  | none => some ((Record.zero, false), c)

/-- The method `Remove`. -/
def Remove (c : Cache V) (key : String) : Option (Cache V) :=
  match c.records key with
  | some val =>
    match (c.queue.valueOf val).asRecord with
    | none => none
    | some record =>
      some { c with records := mapDelete c.records record.Key
                    queue := c.queue.Remove val }
  | none => some c

/-- The method `Len`. -/
def Len (c : Cache V) : Int := c.queue.Len

end Cache

/-! ## Call sequences -/

/-- One call of a mutating method of the cache. -/
inductive Op (V : Type) where
  | set : String → Any V → Op V
  | get : String → Op V
  | remove : String → Op V

/-- The cache after one call (`none` when the call panics). -/
def step (c : Cache V) : Op V → Option (Cache V)
  | Op.set k v => c.Set k v
  | Op.get k => (c.Get k).map Prod.snd
  | Op.remove k => c.Remove k

/-- The cache after a sequence of calls, left to right. -/
def runOps (c : Cache V) : List (Op V) → Option (Cache V)
  | [] => some c
  | op :: ops => (step c op).bind fun c' => runOps c' ops

/-- States reachable from `NewLRUCache(capacity)` by `Set`, `Get` and `Remove` calls. -/
def Reachable (capacity : Int) (c : Cache V) : Prop :=
  ∃ ops : List (Op V), runOps (NewLRUCache capacity) ops = some c

/-! ## Views of a state -/

/-- The `Value` fields of the queue's elements, front first. -/
def Cache.entries (c : Cache V) : List (Any V) := c.queue.order.map c.queue.valueOf

/-- The key of a boxed `Record` (`none` for anything else). -/
def Any.key? : Any V → Option String
  | Any.record k _ => some k
  | _ => none

/-- The key held by the element at address `e`. -/
def Cache.keyAt (c : Cache V) (e : Element) : Option String := (c.queue.valueOf e).key?

/-- The keys of the queue's records, front first. -/
def Cache.keys (c : Cache V) : List (Option String) := c.entries.map Any.key?

/-! ## Intermediate states and the representation invariant -/

/-- The state `Set` and `Remove` build when they drop the record of `k` held at `e`. -/
def unlink (c : Cache V) (k : String) (e : Element) : Cache V :=
  { c with records := mapDelete c.records k, queue := c.queue.Remove e }

/-- The state `pushRecord` builds. -/
def pushed (c : Cache V) (k : String) (v : Any V) : Cache V :=
  { c with queue := c.queue.PushFront (Any.record k v)
           records := mapInsert c.records k c.queue.fresh }

/-- The state `Get` builds on a hit. -/
def promoted (c : Cache V) (e : Element) : Cache V :=
  { c with queue := c.queue.MoveToFront e }

/-- The key index and the queue describe the same set of records. -/
structure Inv (c : Cache V) : Prop where
  below : ∀ e ∈ c.queue.order, e < c.queue.fresh
  isRecord : ∀ e ∈ c.queue.order, ∃ k v, c.queue.valueOf e = Any.record k v
  keysNodup : (c.queue.order.map c.keyAt).Nodup
  index : ∀ k e, c.records k = some e ↔ e ∈ c.queue.order ∧ c.keyAt e = some k

/-- The capacity is positive and respected. -/
def Bounded (c : Cache V) : Prop := 1 ≤ c.capacity ∧ c.Len ≤ c.capacity

/-! ## Time of last touch -/

/-- The key a call touches: the key of a `Set`, or of a `Get` that reports `true`. -/
def touchedKey (c : Cache V) : Op V → Option String
  | Op.set k _ => some k
  | Op.get k =>
    match c.Get k with
    | some ((_, true), _) => some k
    | _ => none
  | Op.remove _ => none

/-- Records that the call `op`, made at time `now` in state `c`, touched its key. -/
def touch (t : String → Nat) (now : Nat) (c : Cache V) (op : Op V) : String → Nat :=
  match touchedKey c op with
  | some k => fun k' => if k' = k then now else t k'
  | none => t

/-- Runs a call sequence while keeping, for each key, the time of its last touch
(the calls are made at times `now`, `now + 1`, ...). -/
def runTimed (c : Cache V) (t : String → Nat) (now : Nat) :
    List (Op V) → Option (Cache V × (String → Nat))
  | [] => some (c, t)
  | op :: ops => (step c op).bind fun c' => runTimed c' (touch t now c op) (now + 1) ops

/-- The time of last touch of a queue key. -/
def timeOf (t : String → Nat) : Option String → Nat
  | some k => t k
  | none => 0

/-- The queue's keys are in strictly decreasing order of last touch, all touched before `now`. -/
def Timed (c : Cache V) (t : String → Nat) (now : Nat) : Prop :=
  c.keys.Pairwise (fun a b => timeOf t b < timeOf t a) ∧ ∀ x ∈ c.keys, timeOf t x < now

/-- The call `Set(p.1, p.2)`. -/
def setOp (p : String × Any V) : Op V := Op.set p.1 p.2

/-! ## The abstract list model -/

/-- The abstract cache of the refinement claim: a duplicate-free list of `(key, value)` pairs,
most recent first, with a capacity. -/
structure ListModel (V : Type) where
  items : List (String × Any V)
  capacity : Int

namespace ListModel

/-- The empty abstract cache. -/
def New (capacity : Int) : ListModel V := ⟨[], capacity⟩

/-- Abstract `Set`: erase `k` if it is there, else drop the last pair if the length equals the
capacity; then put `(k, v)` in front. -/
def Set (m : ListModel V) (k : String) (v : Any V) : ListModel V :=
  if m.items.any (fun p => decide (p.1 = k)) then
    { m with items := (k, v) :: m.items.filter (fun p => decide (p.1 ≠ k)) }
  else if (m.items.length : Int) = m.capacity then
    { m with items := (k, v) :: m.items.dropLast }
  else { m with items := (k, v) :: m.items }

/-- Abstract `Get`: look `k` up and, when found, move its pair to the front. -/
def Get (m : ListModel V) (k : String) : (Record V × Bool) × ListModel V :=
  match m.items.find? (fun p => decide (p.1 = k)) with
  | some p =>
    ((⟨p.1, p.2⟩, true), { m with items := p :: m.items.filter (fun q => decide (q.1 ≠ k)) })
  | none => ((Record.zero, false), m)

/-- Abstract `Remove`: erase `k`. -/
def Remove (m : ListModel V) (k : String) : ListModel V :=
  { m with items := m.items.filter (fun p => decide (p.1 ≠ k)) }

/-- Abstract `Len`: the length of the list. -/
def Len (m : ListModel V) : Int := (m.items.length : Int)

end ListModel

/-- What a call returns (`Get` only) and what `Len()` returns right after it. -/
abbrev Observation (V : Type) := Option (Record V × Bool) × Int

/-- One call on the implementation: what it returns and the cache afterwards. -/
def stepObs (c : Cache V) : Op V → Option (Option (Record V × Bool) × Cache V)
  | Op.set k v => (c.Set k v).map fun c' => (none, c')
  | Op.get k => (c.Get k).map fun p => (some p.1, p.2)
  | Op.remove k => (c.Remove k).map fun c' => (none, c')

/-- The observations of a call sequence on the implementation. -/
def runObs (c : Cache V) : List (Op V) → Option (List (Observation V))
  | [] => some []
  | op :: ops =>
    (stepObs c op).bind fun p => (runObs p.2 ops).map fun l => (p.1, p.2.Len) :: l

/-- One call on the abstract cache. -/
def modelStep (m : ListModel V) : Op V → Option (Record V × Bool) × ListModel V
  | Op.set k v => (none, m.Set k v)
  | Op.get k => (some (m.Get k).1, (m.Get k).2)
  | Op.remove k => (none, m.Remove k)

/-- The observations of a call sequence on the abstract cache. -/
def modelObs (m : ListModel V) : List (Op V) → List (Observation V)
  | [] => []
  | op :: ops => ((modelStep m op).1, (modelStep m op).2.Len) :: modelObs (modelStep m op).2 ops

/-- The abstract cache after a call sequence. -/
def modelRun (m : ListModel V) : List (Op V) → ListModel V
  | [] => m
  | op :: ops => modelRun (modelStep m op).2 ops

/-- The boxed record of a pair. -/
def boxPair (p : String × Any V) : Any V := Any.record p.1 p.2

/-- The `(key, value)` pairs of a list of boxed records. -/
def pairsOf (l : List (Any V)) : List (String × Any V) :=
  l.filterMap fun x => x.asRecord.map fun r => (r.Key, r.Value)

/-- The abstract list a cache state stands for. -/
def Cache.abs (c : Cache V) : List (String × Any V) := pairsOf c.entries

/-- The simulation relation between implementation and abstract cache. -/
def Refines (c : Cache V) (m : ListModel V) : Prop :=
  Inv c ∧ Bounded c ∧ c.abs = m.items ∧ c.capacity = m.capacity

/-! ## Interleaved `Set` calls -/

/-- Lines 44-53 of `Set`, the part that runs while the mutex is held, as a function of the
result `(val, ok)` of the lookup made on line 39 (`none` when `ok` is false). -/
def Cache.SetLocked (c : Cache V) (key : String) (value : Any V)
    (lookup : Option Element) : Option (Cache V) :=
  let record : Record V := ⟨key, value⟩
  match lookup with
  | some val => Cache.pushRecord { c with queue := c.queue.Remove val } key record
  | none =>
    if c.queue.Len = c.capacity then
      match c.queue.Back with
      | none => none
      | some back =>
        match (c.queue.valueOf back).asRecord with
        | none => none
        | some backRecord =>
          Cache.pushRecord
            { c with records := mapDelete c.records backRecord.Key
                     queue := c.queue.Remove back } key record
    else Cache.pushRecord c key record

/-- Where a goroutine that executes `Set(key, value)` stands, statement by statement. -/
inductive SetPc where
  /-- about to run line 39, `val, ok := c.records[key]` -/
  | atLookup : SetPc
  /-- about to run line 41, `c.mutex.Lock()`, with the lookup result in hand -/
  | atLock : Option Element → SetPc
  /-- holds the mutex, about to run lines 44-53 -/
  | atBody : Option Element → SetPc
  /-- lines 44-53 done, the deferred `c.mutex.Unlock()` pending -/
  | atUnlock : SetPc
  | finished : SetPc
  | panicked : SetPc
  deriving DecidableEq, Repr

/-- A goroutine that executes one `Set` call. -/
structure Goroutine (V : Type) where
  key : String
  value : Any V
  pc : SetPc

/-- A cache shared by goroutines: the cache, the holder of its mutex, the goroutines, and a
log of the map lookups made so far (who looked up, and who held the mutex at that moment). -/
structure Config (V : Type) where
  cache : Cache V
  owner : Option Nat
  threads : List (Goroutine V)
  lookups : List (Nat × Option Nat)

/-- All goroutines about to start their `Set` calls on a fresh cache. -/
def Config.start (capacity : Int) (calls : List (String × Any V)) : Config V :=
  { cache := NewLRUCache capacity
    owner := none
    threads := calls.map fun p => ⟨p.1, p.2, SetPc.atLookup⟩
    lookups := [] }

/-- Goroutine `i` runs its next statement (`none` when it cannot: it is blocked on the mutex,
has finished, or does not exist). -/
def Config.run1 (s : Config V) (i : Nat) : Option (Config V) :=
  match s.threads[i]? with
  | none => none
  | some g =>
    match g.pc with
    | SetPc.atLookup =>
      some { s with threads := s.threads.set i
                      { g with pc := SetPc.atLock (s.cache.records g.key) }
                    lookups := (i, s.owner) :: s.lookups }
    | SetPc.atLock l =>
      if s.owner = none then
        some { s with owner := some i, threads := s.threads.set i { g with pc := SetPc.atBody l } }
      else none
    | SetPc.atBody l =>
      match s.cache.SetLocked g.key g.value l with
      | some c' =>
        some { s with cache := c', threads := s.threads.set i { g with pc := SetPc.atUnlock } }
      | none =>
        some { s with owner := none, threads := s.threads.set i { g with pc := SetPc.panicked } }
    | SetPc.atUnlock =>
      some { s with owner := none, threads := s.threads.set i { g with pc := SetPc.finished } }
    | SetPc.finished => none
    | SetPc.panicked => none

/-- Runs the goroutines in the order given by a schedule. -/
def Config.runSchedule (s : Config V) : List Nat → Option (Config V)
  | [] => some s
  | i :: is => (s.run1 i).bind fun s' => s'.runSchedule is

/-- The goroutines' program counters. -/
def Config.pcs (s : Config V) : List SetPc := s.threads.map fun g => g.pc

/-! ## Concrete states -/

/-- The calls `Set("a",1)`, `Set("b",2)`, `Set("c",3)`. -/
def opsABC : List (Op Int) :=
  [Op.set "a" (Any.val 1), Op.set "b" (Any.val 2), Op.set "c" (Any.val 3)]

/-- The cache of capacity 3 after `opsABC`: full, with `a` at the back. -/
def cacheABC : Cache Int := (runOps (NewLRUCache 3) opsABC).getD (NewLRUCache 3)

/-- The cache of capacity 10 after `opsABC`: three records and room left. -/
def cacheABC10 : Cache Int := (runOps (NewLRUCache 10) opsABC).getD (NewLRUCache 10)

/-- The `Set` calls that `TestCache_Get_GetExistedElementTwiceSync_ShouldReturnElement` makes
before its two `Get` calls. -/
def opsGetTwice : List (Op Int) :=
  [Op.set "key" (Any.val 15), Op.set "key2" (Any.val 12), Op.set "key1" (Any.val 20),
    Op.set "key3" (Any.val 13)]

/-- The cache of that test before its two `Get` calls: capacity 10 after `opsGetTwice`. -/
def cacheGetTwice : Cache Int := (runOps (NewLRUCache 10) opsGetTwice).getD (NewLRUCache 10)

/-- A mixed call sequence: `opsABC`, `Get(a)`, `Set(d,4)`, `Get(b)`, `Remove(c)`. -/
def opsMixed : List (Op Int) :=
  opsABC ++ [Op.get "a", Op.set "d" (Any.val 4), Op.get "b", Op.remove "c"]

end LRU

/-! # Theorems -/

namespace LRU

variable {V : Type}

/-! ## Lists without repeated keys -/

theorem erase_eq_filter_key {α β : Type} [DecidableEq α] [DecidableEq β]
    (f : α → β) (l : List α) (e : α) (hn : (l.map f).Nodup) (he : e ∈ l) :
    l.erase e = l.filter (fun x => decide (f x ≠ f e)) := by
  have hl : l.Nodup := List.Nodup.of_map f hn
  rw [List.Nodup.erase_eq_filter hl]
  apply List.filter_congr
  intro x hx
  have hinj := List.inj_on_of_nodup_map hn
  by_cases hxe : x = e
  · simp [hxe]
  · have : f x ≠ f e := fun h => hxe (hinj hx he h)
    simp [hxe, this]

theorem erase_getLast_eq_dropLast {α : Type} [DecidableEq α] (l : List α) (b : α)
    (hn : l.Nodup) (hb : l.getLast? = some b) : l.erase b = l.dropLast := by
  have hl : l = l.dropLast ++ [b] := (List.dropLast_append_getLast? b hb).symm
  have hnot : b ∉ l.dropLast := by
    intro hmem
    rw [hl] at hn
    have := (List.nodup_append.1 hn).2.2
    exact this hmem (by simp)
  conv_lhs => rw [hl]
  rw [List.erase_append_right _ hnot]
  simp

/-! ## Effect of the list methods -/

theorem Remove_valueOf (l : GoList V) (e : Element) : (l.Remove e).valueOf = l.valueOf := by
  unfold GoList.Remove; split <;> rfl

theorem Remove_fresh (l : GoList V) (e : Element) : (l.Remove e).fresh = l.fresh := by
  unfold GoList.Remove; split <;> rfl

theorem Remove_order (l : GoList V) (e : Element) : (l.Remove e).order = l.order.erase e := by
  unfold GoList.Remove
  split
  · rfl
  · rename_i h
    exact (List.erase_of_not_mem h).symm

theorem MoveToFront_valueOf (l : GoList V) (e : Element) :
    (l.MoveToFront e).valueOf = l.valueOf := by
  unfold GoList.MoveToFront; split <;> rfl

theorem MoveToFront_fresh (l : GoList V) (e : Element) :
    (l.MoveToFront e).fresh = l.fresh := by
  unfold GoList.MoveToFront; split <;> rfl

theorem MoveToFront_order (l : GoList V) (e : Element) (he : e ∈ l.order) :
    (l.MoveToFront e).order = e :: l.order.erase e := by
  unfold GoList.MoveToFront
  split
  · rename_i h
    rcases h with h | h
    · exact absurd he h
    · cases hl : l.order with
      | nil => rw [hl] at he; cases he
      | cons a t =>
        rw [hl] at h
        simp at h
        subst h
        simp
  · rfl

theorem mapInsert_mapDelete {α : Type} (m : String → Option α) (k : String) (v : α) :
    mapInsert (mapDelete m k) k v = mapInsert m k v := by
  funext k'
  unfold mapInsert mapDelete
  split <;> rfl

theorem pushRecord_eq (c : Cache V) (k : String) (v : Any V) :
    c.pushRecord k ⟨k, v⟩ = some (pushed c k v) := rfl

theorem Inv_New (capacity : Int) : Inv (NewLRUCache capacity : Cache V) where
  below := by intro e he; cases he
  isRecord := by intro e he; cases he
  keysNodup := List.nodup_nil
  index := by
    intro k e
    constructor
    · intro h; cases h
    · intro h; cases h.1

theorem Inv.nodup {c : Cache V} (h : Inv c) : c.queue.order.Nodup :=
  List.Nodup.of_map _ h.keysNodup

theorem Inv.keyAt_inj {c : Cache V} (h : Inv c) {a b : Element}
    (ha : a ∈ c.queue.order) (hb : b ∈ c.queue.order) (hab : c.keyAt a = c.keyAt b) : a = b :=
  List.inj_on_of_nodup_map h.keysNodup ha hb hab

theorem Inv_unlink {c : Cache V} (h : Inv c) {k : String} {e : Element}
    (hk : c.records k = some e) : Inv (unlink c k e) := by
  obtain ⟨he, hke⟩ := (h.index k e).1 hk
  have hord : (unlink c k e).queue.order = c.queue.order.erase e := Remove_order _ _
  have hval : (unlink c k e).queue.valueOf = c.queue.valueOf := Remove_valueOf _ _
  have hkey : (unlink c k e).keyAt = c.keyAt := by
    funext x; unfold Cache.keyAt; rw [hval]
  refine ⟨?_, ?_, ?_, ?_⟩
  · intro x hx
    rw [hord] at hx
    show x < (c.queue.Remove e).fresh
    rw [Remove_fresh]
    exact h.below x (List.mem_of_mem_erase hx)
  · intro x hx
    rw [hord] at hx
    rw [hval]
    exact h.isRecord x (List.mem_of_mem_erase hx)
  · rw [hord, hkey]
    exact h.keysNodup.sublist ((List.erase_sublist e _).map _)
  · intro k' x
    rw [hord, hkey]
    show mapDelete c.records k k' = some x ↔ _
    unfold mapDelete
    rw [h.nodup.mem_erase_iff]
    by_cases hkk : k' = k
    · subst hkk
      simp only [if_true]
      constructor
      · intro hh; cases hh
      · rintro ⟨⟨hne, hx⟩, hkx⟩
        exact absurd (h.keyAt_inj hx he (hkx.trans hke.symm)) hne
    · simp only [if_neg hkk]
      rw [h.index k' x]
      constructor
      · rintro ⟨hx, hkx⟩
        refine ⟨⟨?_, hx⟩, hkx⟩
        rintro rfl
        rw [hke] at hkx
        exact hkk (Option.some.inj hkx).symm
      · rintro ⟨⟨_, hx⟩, hkx⟩
        exact ⟨hx, hkx⟩

theorem unlink_Len {c : Cache V} (h : Inv c) {k : String} {e : Element}
    (hk : c.records k = some e) : (unlink c k e).Len = c.Len - 1 := by
  obtain ⟨he, _⟩ := (h.index k e).1 hk
  show (((c.queue.Remove e).order.length : Nat) : Int) = ((c.queue.order.length : Nat) : Int) - 1
  rw [Remove_order, List.length_erase_of_mem he]
  have : 0 < c.queue.order.length := List.length_pos_of_mem he
  omega

theorem unlink_entries {c : Cache V} (h : Inv c) {k : String} {e : Element}
    (hk : c.records k = some e) :
    (unlink c k e).entries = c.entries.filter (fun x => decide (x.key? ≠ some k)) := by
  obtain ⟨he, hke⟩ := (h.index k e).1 hk
  show ((c.queue.Remove e).order).map (c.queue.Remove e).valueOf = _
  rw [Remove_order, Remove_valueOf, erase_eq_filter_key c.keyAt _ e h.keysNodup he, hke]
  unfold Cache.entries
  rw [List.filter_map]
  rfl

theorem pushed_valueOf {c : Cache V} (h : Inv c) (k : String) (v : Any V)
    {e : Element} (he : e ∈ c.queue.order) :
    (pushed c k v).queue.valueOf e = c.queue.valueOf e := by
  have hlt := h.below e he
  show (if e = c.queue.fresh then Any.record k v else c.queue.valueOf e) = _
  rw [if_neg (Nat.ne_of_lt hlt)]

theorem pushed_keyAt {c : Cache V} (h : Inv c) (k : String) (v : Any V)
    {e : Element} (he : e ∈ c.queue.order) : (pushed c k v).keyAt e = c.keyAt e := by
  unfold Cache.keyAt
  rw [pushed_valueOf h k v he]

theorem pushed_valueOf_fresh (c : Cache V) (k : String) (v : Any V) :
    (pushed c k v).queue.valueOf c.queue.fresh = Any.record k v := by
  show (if c.queue.fresh = c.queue.fresh then Any.record k v else _) = _
  rw [if_pos rfl]

theorem pushed_entries {c : Cache V} (h : Inv c) (k : String) (v : Any V) :
    (pushed c k v).entries = Any.record k v :: c.entries := by
  show ((c.queue.fresh :: c.queue.order).map (pushed c k v).queue.valueOf) = _
  rw [List.map_cons, pushed_valueOf_fresh]
  congr 1
  apply List.map_congr_left
  intro e he
  exact pushed_valueOf h k v he

theorem pushed_Len (c : Cache V) (k : String) (v : Any V) : (pushed c k v).Len = c.Len + 1 := by
  show (((c.queue.fresh :: c.queue.order).length : Nat) : Int) = (c.queue.order.length : Int) + 1
  simp

theorem Inv_pushed {c : Cache V} (h : Inv c) {k : String} (v : Any V)
    (hk : c.records k = none) : Inv (pushed c k v) := by
  have hfresh : c.queue.fresh ∉ c.queue.order := fun hm => Nat.lt_irrefl _ (h.below _ hm)
  have hkfresh : (pushed c k v).keyAt c.queue.fresh = some k := by
    unfold Cache.keyAt; rw [pushed_valueOf_fresh]; rfl
  have habsent : ∀ e ∈ c.queue.order, c.keyAt e ≠ some k := by
    intro e he hke
    have := (h.index k e).2 ⟨he, hke⟩
    rw [hk] at this
    cases this
  refine ⟨?_, ?_, ?_, ?_⟩
  · intro e he
    show e < c.queue.fresh + 1
    rcases List.mem_cons.1 he with rfl | he
    · exact Nat.lt_succ_self _
    · exact Nat.lt_succ_of_lt (h.below e he)
  · intro e he
    rcases List.mem_cons.1 he with rfl | he
    · exact ⟨k, v, pushed_valueOf_fresh c k v⟩
    · rw [pushed_valueOf h k v he]
      exact h.isRecord e he
  · show ((c.queue.fresh :: c.queue.order).map (pushed c k v).keyAt).Nodup
    rw [List.map_cons, List.nodup_cons]
    have hmap : c.queue.order.map (pushed c k v).keyAt = c.queue.order.map c.keyAt :=
      List.map_congr_left fun e he => pushed_keyAt h k v he
    rw [hmap, hkfresh]
    refine ⟨?_, h.keysNodup⟩
    intro hm
    obtain ⟨e, he, hke⟩ := List.mem_map.1 hm
    exact habsent e he hke
  · intro k' e
    show mapInsert c.records k c.queue.fresh k' = some e ↔
      e ∈ c.queue.fresh :: c.queue.order ∧ (pushed c k v).keyAt e = some k'
    unfold mapInsert
    rw [List.mem_cons]
    by_cases hkk : k' = k
    · subst hkk
      simp only [if_true]
      constructor
      · intro hh
        have : c.queue.fresh = e := Option.some.inj hh
        subst this
        exact ⟨Or.inl rfl, hkfresh⟩
      · rintro ⟨rfl | he, hke⟩
        · rfl
        · rw [pushed_keyAt h k' v he] at hke
          exact absurd hke (habsent e he)
    · simp only [if_neg hkk]
      rw [h.index k' e]
      constructor
      · rintro ⟨he, hke⟩
        exact ⟨Or.inr he, by rw [pushed_keyAt h k v he]; exact hke⟩
      · rintro ⟨rfl | he, hke⟩
        · rw [hkfresh] at hke
          exact absurd (Option.some.inj hke).symm hkk
        · exact ⟨he, by rw [← pushed_keyAt h k v he]; exact hke⟩

/-! ## What each method computes -/

theorem Set_hit_eq (c : Cache V) {k : String} {e : Element} (v : Any V)
    (hk : c.records k = some e) : c.Set k v = some (pushed (unlink c k e) k v) := by
  unfold Cache.Set
  simp only [hk]
  rw [pushRecord_eq]
  unfold pushed unlink
  simp only [mapInsert_mapDelete]

theorem Set_room_eq (c : Cache V) {k : String} (v : Any V)
    (hk : c.records k = none) (hlen : c.Len ≠ c.capacity) : c.Set k v = some (pushed c k v) := by
  unfold Cache.Set
  simp only [hk]
  have hlen' : ¬ c.queue.Len = c.capacity := hlen
  rw [if_neg hlen', pushRecord_eq]

theorem back_exists {c : Cache V} (h : Inv c) (hpos : c.queue.order ≠ []) :
    ∃ b kb vb, c.queue.order.getLast? = some b ∧ c.queue.valueOf b = Any.record kb vb ∧
      c.records kb = some b := by
  have hb : c.queue.order.getLast? = some (c.queue.order.getLast hpos) :=
    List.getLast?_eq_getLast _ hpos
  have hmem : c.queue.order.getLast hpos ∈ c.queue.order := List.getLast_mem hpos
  obtain ⟨kb, vb, hv⟩ := h.isRecord _ hmem
  refine ⟨_, kb, vb, hb, hv, ?_⟩
  apply (h.index kb _).2
  refine ⟨hmem, ?_⟩
  unfold Cache.keyAt
  rw [hv]
  rfl

theorem Set_evict_eq {c : Cache V} {k : String} (v : Any V)
    (hk : c.records k = none) (hlen : c.Len = c.capacity) {b : Element} {kb : String}
    {vb : Any V} (hb : c.queue.order.getLast? = some b)
    (hv : c.queue.valueOf b = Any.record kb vb) :
    c.Set k v = some (pushed (unlink c kb b) k v) := by
  unfold Cache.Set
  simp only [hk]
  have hlen' : c.queue.Len = c.capacity := hlen
  rw [if_pos hlen']
  simp only [GoList.Back, hb, hv, Any.asRecord]
  rw [pushRecord_eq]
  rfl

theorem Get_hit_eq {c : Cache V} (h : Inv c) {k : String} {e : Element}
    (hk : c.records k = some e) :
    ∃ v0, c.queue.valueOf e = Any.record k v0 ∧
      c.Get k = some ((⟨k, v0⟩, true), promoted c e) := by
  obtain ⟨he, hke⟩ := (h.index k e).1 hk
  obtain ⟨k0, v0, hv⟩ := h.isRecord e he
  have hk0 : k0 = k := by
    unfold Cache.keyAt at hke
    rw [hv] at hke
    exact Option.some.inj hke
  subst hk0
  refine ⟨v0, hv, ?_⟩
  unfold Cache.Get
  simp only [hk, hv, Any.asRecord]
  rfl

theorem Get_miss_eq (c : Cache V) {k : String} (hk : c.records k = none) :
    c.Get k = some ((Record.zero, false), c) := by
  unfold Cache.Get
  simp only [hk]

theorem Remove_hit_eq {c : Cache V} (h : Inv c) {k : String} {e : Element}
    (hk : c.records k = some e) : c.Remove k = some (unlink c k e) := by
  obtain ⟨v0, hv, _⟩ := Get_hit_eq h hk
  unfold Cache.Remove
  simp only [hk, hv, Any.asRecord]
  rfl

theorem Remove_miss_eq (c : Cache V) {k : String} (hk : c.records k = none) :
    c.Remove k = some c := by
  unfold Cache.Remove
  simp only [hk]

theorem promoted_order {c : Cache V} (h : Inv c) {k : String} {e : Element}
    (hk : c.records k = some e) :
    (promoted c e).queue.order = e :: c.queue.order.erase e :=
  MoveToFront_order _ _ ((h.index k e).1 hk).1

theorem Inv_promoted {c : Cache V} (h : Inv c) {k : String} {e : Element}
    (hk : c.records k = some e) : Inv (promoted c e) := by
  obtain ⟨he, hke⟩ := (h.index k e).1 hk
  have hord := promoted_order h hk
  have hval : (promoted c e).queue.valueOf = c.queue.valueOf := MoveToFront_valueOf _ _
  have hkey : (promoted c e).keyAt = c.keyAt := by
    funext x; unfold Cache.keyAt; rw [hval]
  have hperm : (e :: c.queue.order.erase e).Perm c.queue.order := (List.perm_cons_erase he).symm
  refine ⟨?_, ?_, ?_, ?_⟩
  · intro x hx
    rw [hord] at hx
    show x < (c.queue.MoveToFront e).fresh
    rw [MoveToFront_fresh]
    exact h.below x (hperm.mem_iff.1 hx)
  · intro x hx
    rw [hord] at hx
    rw [hval]
    exact h.isRecord x (hperm.mem_iff.1 hx)
  · rw [hord, hkey]
    exact (hperm.map _).nodup_iff.2 h.keysNodup
  · intro k' x
    rw [hord, hkey, hperm.mem_iff]
    exact h.index k' x

theorem promoted_entries {c : Cache V} (h : Inv c) {k : String} {e : Element}
    (hk : c.records k = some e) :
    (promoted c e).entries =
      c.queue.valueOf e :: c.entries.filter (fun x => decide (x.key? ≠ some k)) := by
  obtain ⟨he, hke⟩ := (h.index k e).1 hk
  show ((promoted c e).queue.order).map (c.queue.MoveToFront e).valueOf = _
  rw [promoted_order h hk, MoveToFront_valueOf, List.map_cons,
    erase_eq_filter_key c.keyAt _ e h.keysNodup he, hke]
  unfold Cache.entries
  rw [List.filter_map]
  rfl

theorem promoted_Len {c : Cache V} (h : Inv c) {k : String} {e : Element}
    (hk : c.records k = some e) : (promoted c e).Len = c.Len := by
  obtain ⟨he, _⟩ := (h.index k e).1 hk
  show (((promoted c e).queue.order.length : Nat) : Int) = ((c.queue.order.length : Nat) : Int)
  rw [promoted_order h hk, (List.perm_cons_erase he).length_eq]

theorem Set_evict_empty (c : Cache V) {k : String} (v : Any V)
    (hk : c.records k = none) (hlen : c.Len = c.capacity) (hnil : c.queue.order = []) :
    c.Set k v = none := by
  unfold Cache.Set
  simp only [hk]
  have hlen' : c.queue.Len = c.capacity := hlen
  rw [if_pos hlen']
  simp only [GoList.Back, hnil, List.getLast?_nil]

theorem unlink_records_self (c : Cache V) (k : String) (e : Element) :
    (unlink c k e).records k = none := by
  show mapDelete c.records k k = none
  unfold mapDelete
  rw [if_pos rfl]

theorem unlink_records_none (c : Cache V) {k : String} (kb : String) (e : Element)
    (hk : c.records k = none) : (unlink c kb e).records k = none := by
  show mapDelete c.records kb k = none
  unfold mapDelete
  split
  · rfl
  · exact hk

theorem order_ne_nil_of_full {c : Cache V} (hcap : 1 ≤ c.capacity) (hlen : c.Len = c.capacity) :
    c.queue.order ≠ [] := by
  intro hnil
  have h2 : ((c.queue.order.length : Nat) : Int) = c.capacity := hlen
  rw [hnil] at h2
  simp at h2
  omega

/-! ## The invariant along call sequences -/

/-- A successful `Set` of an absent key into a full cache dropped the back record. -/
theorem Set_full_some {c c' : Cache V} (h : Inv c) {k : String} {v : Any V}
    (hk : c.records k = none) (hlen : c.Len = c.capacity) (hs : c.Set k v = some c') :
    ∃ b kb vb, c.queue.order.getLast? = some b ∧ c.queue.valueOf b = Any.record kb vb ∧
      c.records kb = some b ∧ c' = pushed (unlink c kb b) k v := by
  by_cases hnil : c.queue.order = []
  · rw [Set_evict_empty c v hk hlen hnil] at hs
    cases hs
  · obtain ⟨b, kb, vb, hb, hv, hrb⟩ := back_exists h hnil
    rw [Set_evict_eq v hk hlen hb hv] at hs
    exact ⟨b, kb, vb, hb, hv, hrb, (Option.some.inj hs).symm⟩

theorem Inv_Set {c c' : Cache V} (h : Inv c) {k : String} {v : Any V}
    (hs : c.Set k v = some c') : Inv c' ∧ c'.capacity = c.capacity := by
  cases hk : c.records k with
  | some e =>
    rw [Set_hit_eq c v hk] at hs
    cases hs
    exact ⟨Inv_pushed (Inv_unlink h hk) v (unlink_records_self c k e), rfl⟩
  | none =>
    by_cases hlen : c.Len = c.capacity
    · obtain ⟨b, kb, vb, _, _, hrb, rfl⟩ := Set_full_some h hk hlen hs
      exact ⟨Inv_pushed (Inv_unlink h hrb) v (unlink_records_none c kb b hk), rfl⟩
    · rw [Set_room_eq c v hk hlen] at hs
      cases hs
      exact ⟨Inv_pushed h v hk, rfl⟩

theorem Inv_Get {c c' : Cache V} (h : Inv c) {k : String} {r : Record V × Bool}
    (hs : c.Get k = some (r, c')) : Inv c' ∧ c'.capacity = c.capacity := by
  cases hk : c.records k with
  | some e =>
    obtain ⟨v0, _, hg⟩ := Get_hit_eq h hk
    rw [hg] at hs
    cases hs
    exact ⟨Inv_promoted h hk, rfl⟩
  | none =>
    rw [Get_miss_eq c hk] at hs
    cases hs
    exact ⟨h, rfl⟩

theorem Inv_Remove {c c' : Cache V} (h : Inv c) {k : String}
    (hs : c.Remove k = some c') : Inv c' ∧ c'.capacity = c.capacity := by
  cases hk : c.records k with
  | some e =>
    rw [Remove_hit_eq h hk] at hs
    cases hs
    exact ⟨Inv_unlink h hk, rfl⟩
  | none =>
    rw [Remove_miss_eq c hk] at hs
    cases hs
    exact ⟨h, rfl⟩

theorem Inv_step {c c' : Cache V} (h : Inv c) {op : Op V}
    (hs : step c op = some c') : Inv c' ∧ c'.capacity = c.capacity := by
  cases op with
  | set k v => exact Inv_Set h hs
  | get k =>
    have hs : (c.Get k).map Prod.snd = some c' := hs
    cases hg : c.Get k with
    | none => rw [hg] at hs; cases hs
    | some p =>
      obtain ⟨r, c2⟩ := p
      rw [hg] at hs
      cases hs
      exact Inv_Get h hg
  | remove k => exact Inv_Remove h hs

theorem Inv_runOps {ops : List (Op V)} {c c' : Cache V} (h : Inv c)
    (hs : runOps c ops = some c') : Inv c' ∧ c'.capacity = c.capacity := by
  induction ops generalizing c with
  | nil =>
    cases hs
    exact ⟨h, rfl⟩
  | cons op ops ih =>
    unfold runOps at hs
    cases h1 : step c op with
    | none => rw [h1] at hs; cases hs
    | some c1 =>
      rw [h1] at hs
      obtain ⟨hi, hc⟩ := Inv_step h h1
      obtain ⟨hi', hc'⟩ := ih hi hs
      exact ⟨hi', hc'.trans hc⟩

theorem Reachable.inv {capacity : Int} {c : Cache V} (hr : Reachable capacity c) :
    Inv c ∧ c.capacity = capacity := by
  obtain ⟨ops, ho⟩ := hr
  exact Inv_runOps (Inv_New capacity) ho

theorem Bounded_step {c : Cache V} (h : Inv c) (hb : Bounded c) (op : Op V) :
    ∃ c', step c op = some c' ∧ Bounded c' := by
  obtain ⟨hcap, hle⟩ := hb
  cases op with
  | set k v =>
    show ∃ c', c.Set k v = some c' ∧ Bounded c'
    cases hk : c.records k with
    | some e =>
      refine ⟨_, Set_hit_eq c v hk, hcap, ?_⟩
      rw [pushed_Len, unlink_Len h hk]
      show c.Len - 1 + 1 ≤ c.capacity
      omega
    | none =>
      by_cases hlen : c.Len = c.capacity
      · obtain ⟨b, kb, vb, hlast, hv, hrb⟩ := back_exists h (order_ne_nil_of_full hcap hlen)
        refine ⟨_, Set_evict_eq v hk hlen hlast hv, hcap, ?_⟩
        rw [pushed_Len, unlink_Len h hrb]
        show c.Len - 1 + 1 ≤ c.capacity
        omega
      · refine ⟨_, Set_room_eq c v hk hlen, hcap, ?_⟩
        rw [pushed_Len]
        show c.Len + 1 ≤ c.capacity
        omega
  | get k =>
    show ∃ c', (c.Get k).map Prod.snd = some c' ∧ Bounded c'
    cases hk : c.records k with
    | some e =>
      obtain ⟨v0, _, hg⟩ := Get_hit_eq h hk
      rw [hg]
      refine ⟨_, rfl, hcap, ?_⟩
      rw [promoted_Len h hk]
      exact hle
    | none =>
      rw [Get_miss_eq c hk]
      exact ⟨_, rfl, hcap, hle⟩
  | remove k =>
    show ∃ c', c.Remove k = some c' ∧ Bounded c'
    cases hk : c.records k with
    | some e =>
      refine ⟨_, Remove_hit_eq h hk, hcap, ?_⟩
      rw [unlink_Len h hk]
      show c.Len - 1 ≤ c.capacity
      omega
    | none => exact ⟨_, Remove_miss_eq c hk, hcap, hle⟩

theorem Bounded_runOps (ops : List (Op V)) {c : Cache V} (h : Inv c) (hb : Bounded c) :
    ∃ c', runOps c ops = some c' ∧ Inv c' ∧ Bounded c' := by
  induction ops generalizing c with
  | nil => exact ⟨c, rfl, h, hb⟩
  | cons op ops ih =>
    obtain ⟨c1, h1, hb1⟩ := Bounded_step h hb op
    obtain ⟨c2, h2, hi2, hb2⟩ := ih (Inv_step h h1).1 hb1
    refine ⟨c2, ?_, hi2, hb2⟩
    unfold runOps
    rw [h1]
    exact h2

theorem Bounded_New (capacity : Int) (hcap : 1 ≤ capacity) :
    Bounded (NewLRUCache capacity : Cache V) := by
  refine ⟨hcap, ?_⟩
  show ((0 : Nat) : Int) ≤ capacity
  omega

theorem Len_nonneg (c : Cache V) : 0 ≤ c.Len := by
  show (0 : Int) ≤ ((c.queue.order.length : Nat) : Int)
  omega

theorem keys_eq (c : Cache V) : c.keys = c.queue.order.map c.keyAt := by
  unfold Cache.keys Cache.entries
  rw [List.map_map]
  rfl

theorem reach_ABC : Reachable 3 cacheABC := ⟨opsABC, rfl⟩

theorem reach_ABC10 : Reachable 10 cacheABC10 := ⟨opsABC, rfl⟩

theorem unlink_back_entries {c : Cache V} (h : Inv c) {kb : String} {b : Element}
    (hb : c.queue.order.getLast? = some b) :
    (unlink c kb b).entries = c.entries.dropLast := by
  show ((c.queue.Remove b).order).map (c.queue.Remove b).valueOf = _
  rw [Remove_order, Remove_valueOf, erase_getLast_eq_dropLast _ b h.nodup hb, List.map_dropLast]
  rfl

theorem pushed_front (c : Cache V) (k : String) (v : Any V) :
    ∃ e, (pushed c k v).queue.Front = some e ∧ (pushed c k v).records k = some e ∧
      (pushed c k v).queue.valueOf e = Any.record k v := by
  refine ⟨c.queue.fresh, rfl, ?_, pushed_valueOf_fresh c k v⟩
  show mapInsert c.records k c.queue.fresh k = _
  unfold mapInsert
  rw [if_pos rfl]

theorem pushed_records_ne (c : Cache V) (k : String) (v : Any V) {k' : String} (hk : k' ≠ k) :
    (pushed c k v).records k' = c.records k' := by
  show mapInsert c.records k c.queue.fresh k' = _
  unfold mapInsert
  rw [if_neg hk]

theorem unlink_records_ne (c : Cache V) (k : String) (e : Element) {k' : String} (hk : k' ≠ k) :
    (unlink c k e).records k' = c.records k' := by
  show mapDelete c.records k k' = _
  unfold mapDelete
  rw [if_neg hk]

/-! ## Claims -/

/-- C1 (eviction correctness): in a state reachable from `NewLRUCache(capacity)` with
`capacity ≥ 1` and `Len() == capacity`, `Set(k, v)` for an absent key `k` succeeds and removes
exactly the back element `b` (holding the record of key `kb`) from the queue and from the key
index; all other elements stay linked with their values, the queue's contents become `(k, v)`
followed by the old contents without their last entry, the index of every other key is
untouched, the new record is at the front and indexed under `k`, and `Len()` is still
`capacity`. -/
theorem Set_full_evicts_back (capacity : Int) (c : Cache V) (k : String) (v : Any V)
    (hcap : 1 ≤ capacity) (hr : Reachable capacity c) (hfull : c.Len = capacity)
    (hk : c.records k = none) :
    ∃ (c' : Cache V) (b : Element) (kb : String) (vb : Any V),
      c.Set k v = some c' ∧
      c.queue.Back = some b ∧ c.queue.valueOf b = Any.record kb vb ∧
      c'.entries = Any.record k v :: c.entries.dropLast ∧
      b ∉ c'.queue.order ∧ c'.records kb = none ∧
      (∀ k', k' ≠ k → k' ≠ kb → c'.records k' = c.records k') ∧
      (∀ e ∈ c.queue.order, e ≠ b →
        e ∈ c'.queue.order ∧ c'.queue.valueOf e = c.queue.valueOf e) ∧
      (∃ e, c'.queue.Front = some e ∧ c'.records k = some e ∧
        c'.queue.valueOf e = Any.record k v) ∧
      c'.Len = capacity := by
  obtain ⟨h, hc⟩ := hr.inv
  have hlen : c.Len = c.capacity := by rw [hc]; exact hfull
  have hcap' : 1 ≤ c.capacity := by rw [hc]; exact hcap
  obtain ⟨b, kb, vb, hlast, hv, hrb⟩ := back_exists h (order_ne_nil_of_full hcap' hlen)
  have hu : Inv (unlink c kb b) := Inv_unlink h hrb
  have hmemb : b ∈ c.queue.order := ((h.index kb b).1 hrb).1
  have hkne : kb ≠ k := by
    rintro rfl
    rw [hk] at hrb
    cases hrb
  refine ⟨pushed (unlink c kb b) k v, b, kb, vb, Set_evict_eq v hk hlen hlast hv, hlast, hv,
    ?_, ?_, ?_, ?_, ?_, pushed_front _ k v, ?_⟩
  · rw [pushed_entries hu, unlink_back_entries h hlast]
  · show b ∉ (c.queue.Remove b).fresh :: (c.queue.Remove b).order
    rw [Remove_fresh, Remove_order, List.mem_cons]
    rintro (hbf | hbe)
    · exact Nat.lt_irrefl _ (hbf ▸ h.below b hmemb)
    · exact h.nodup.not_mem_erase hbe
  · rw [pushed_records_ne _ k v hkne]
    exact unlink_records_self c kb b
  · intro k' h1 h2
    rw [pushed_records_ne _ k v h1, unlink_records_ne c kb b h2]
  · intro e he hne
    have he' : e ∈ (unlink c kb b).queue.order := by
      show e ∈ (c.queue.Remove b).order
      rw [Remove_order]
      exact (List.mem_erase_of_ne hne).2 he
    refine ⟨List.mem_cons_of_mem _ he', ?_⟩
    rw [pushed_valueOf hu k v he']
    show (c.queue.Remove b).valueOf e = _
    rw [Remove_valueOf]
  · rw [pushed_Len, unlink_Len h hrb, hfull]
    omega

/-- Witness for C1: capacity 3 after `Set(a,1)`, `Set(b,2)`, `Set(c,3)`, then `Set(d,4)`. -/
theorem Set_full_evicts_back_witness :
    ∃ (c' : Cache Int) (b : Element) (kb : String) (vb : Any Int),
      cacheABC.Set "d" (Any.val 4) = some c' ∧
      cacheABC.queue.Back = some b ∧ cacheABC.queue.valueOf b = Any.record kb vb ∧
      c'.entries = Any.record "d" (Any.val 4) :: cacheABC.entries.dropLast ∧
      b ∉ c'.queue.order ∧ c'.records kb = none ∧
      (∀ k', k' ≠ "d" → k' ≠ kb → c'.records k' = cacheABC.records k') ∧
      (∀ e ∈ cacheABC.queue.order, e ≠ b →
        e ∈ c'.queue.order ∧ c'.queue.valueOf e = cacheABC.queue.valueOf e) ∧
      (∃ e, c'.queue.Front = some e ∧ c'.records "d" = some e ∧
        c'.queue.valueOf e = Any.record "d" (Any.val 4)) ∧
      c'.Len = 3 :=
  Set_full_evicts_back 3 cacheABC "d" (Any.val 4) (by decide) reach_ABC (by decide) (by decide)

/-- C2 (capacity bound): for `capacity ≥ 1` and any sequence of `Set`, `Get` and `Remove`
calls on `NewLRUCache(capacity)`, every prefix of the sequence runs to completion and leaves
`0 ≤ Len() ≤ capacity`. -/
theorem Len_within_capacity (capacity : Int) (hcap : 1 ≤ capacity) (ops : List (Op V))
    (n : Nat) :
    ∃ c : Cache V, runOps (NewLRUCache capacity) (ops.take n) = some c ∧
      0 ≤ c.Len ∧ c.Len ≤ capacity := by
  obtain ⟨c, hrun, hi, hb⟩ :=
    Bounded_runOps (ops.take n) (Inv_New capacity) (Bounded_New capacity hcap)
  have hc : c.capacity = capacity := (Inv_runOps (Inv_New capacity) hrun).2
  refine ⟨c, hrun, Len_nonneg c, ?_⟩
  rw [← hc]
  exact hb.2

/-- Witness for C2: capacity 3 and the first four of five calls. -/
theorem Len_within_capacity_witness :
    ∃ c : Cache Int,
      runOps (NewLRUCache 3)
        ((opsABC ++ [Op.set "d" (Any.val 4), Op.remove "b"]).take 4) = some c ∧
      0 ≤ c.Len ∧ c.Len ≤ 3 :=
  Len_within_capacity 3 (by decide) (opsABC ++ [Op.set "d" (Any.val 4), Op.remove "b"]) 4

/-- C3 (index/ordering lockstep): in every state reachable from `NewLRUCache(capacity)` the
keys with an entry in `records` are exactly the keys of the queue's records, no key (and no
element) occurs twice in the queue, every queue element holds a `Record` and is the element
`records` gives for that record's key, and `records[k]` is a linked element whose record has
`Key == k`. -/
theorem index_queue_lockstep (capacity : Int) (c : Cache V) (hr : Reachable capacity c) :
    (∀ k, (c.records k).isSome ↔ some k ∈ c.keys) ∧
    c.keys.Nodup ∧ c.queue.order.Nodup ∧
    (∀ e ∈ c.queue.order, ∃ k v, c.queue.valueOf e = Any.record k v ∧ c.records k = some e) ∧
    (∀ k e, c.records k = some e →
      e ∈ c.queue.order ∧ ∃ v, c.queue.valueOf e = Any.record k v) := by
  obtain ⟨h, _⟩ := hr.inv
  have hkey : ∀ e k v, c.queue.valueOf e = Any.record k v → c.keyAt e = some k := by
    intro e k v hv
    unfold Cache.keyAt
    rw [hv]
    rfl
  refine ⟨?_, ?_, h.nodup, ?_, ?_⟩
  · intro k
    rw [keys_eq, List.mem_map]
    constructor
    · intro hs
      obtain ⟨e, he⟩ := Option.isSome_iff_exists.1 hs
      exact ⟨e, (h.index k e).1 he⟩
    · rintro ⟨e, he, hke⟩
      rw [(h.index k e).2 ⟨he, hke⟩]
      rfl
  · rw [keys_eq]
    exact h.keysNodup
  · intro e he
    obtain ⟨k, v, hv⟩ := h.isRecord e he
    exact ⟨k, v, hv, (h.index k e).2 ⟨he, hkey e k v hv⟩⟩
  · intro k e hke
    obtain ⟨he, hk⟩ := (h.index k e).1 hke
    obtain ⟨k0, v0, hv⟩ := h.isRecord e he
    have : k0 = k := Option.some.inj ((hkey e k0 v0 hv).symm.trans hk)
    subst this
    exact ⟨he, v0, hv⟩

/-- Witness for C3: the full cache of capacity 3. -/
theorem index_queue_lockstep_witness :
    (∀ k, (cacheABC.records k).isSome ↔ some k ∈ cacheABC.keys) ∧
    cacheABC.keys.Nodup ∧ cacheABC.queue.order.Nodup ∧
    (∀ e ∈ cacheABC.queue.order,
      ∃ k v, cacheABC.queue.valueOf e = Any.record k v ∧ cacheABC.records k = some e) ∧
    (∀ k e, cacheABC.records k = some e →
      e ∈ cacheABC.queue.order ∧ ∃ v, cacheABC.queue.valueOf e = Any.record k v) :=
  index_queue_lockstep 3 cacheABC reach_ABC

/-- C4 (replace semantics): in a reachable state where `k` is present (at element `e`),
`Set(k, v)` succeeds; the queue's contents become `(k, v)` followed by the former entries of
the other keys, unchanged and in the same order; the new record is the front element and is
indexed under `k`; `Len()` is unchanged; the index of every other key and every other linked
element are untouched.  No assumption on `Len()` is made, so this covers a full cache. -/
theorem Set_existing_replaces (capacity : Int) (c : Cache V) (k : String) (v : Any V)
    (e : Element) (hr : Reachable capacity c) (hk : c.records k = some e) :
    ∃ c' : Cache V, c.Set k v = some c' ∧
      c'.entries = Any.record k v :: c.entries.filter (fun x => decide (x.key? ≠ some k)) ∧
      (∃ e', c'.queue.Front = some e' ∧ c'.records k = some e' ∧
        c'.queue.valueOf e' = Any.record k v) ∧
      c'.Len = c.Len ∧
      (∀ k', k' ≠ k → c'.records k' = c.records k') ∧
      (∀ x ∈ c.queue.order, x ≠ e →
        x ∈ c'.queue.order ∧ c'.queue.valueOf x = c.queue.valueOf x) := by
  obtain ⟨h, _⟩ := hr.inv
  have hu : Inv (unlink c k e) := Inv_unlink h hk
  refine ⟨pushed (unlink c k e) k v, Set_hit_eq c v hk, ?_, pushed_front _ k v, ?_, ?_, ?_⟩
  · rw [pushed_entries hu, unlink_entries h hk]
  · rw [pushed_Len, unlink_Len h hk]
    omega
  · intro k' hne
    rw [pushed_records_ne _ k v hne, unlink_records_ne c k e hne]
  · intro x hx hne
    have hx' : x ∈ (unlink c k e).queue.order := by
      show x ∈ (c.queue.Remove e).order
      rw [Remove_order]
      exact (List.mem_erase_of_ne hne).2 hx
    refine ⟨List.mem_cons_of_mem _ hx', ?_⟩
    rw [pushed_valueOf hu k v hx']
    show (c.queue.Remove e).valueOf x = _
    rw [Remove_valueOf]

/-- Witness for C4: the full cache of capacity 3, replacing the oldest key `a`. -/
theorem Set_existing_replaces_witness :
    ∃ c' : Cache Int, cacheABC.Set "a" (Any.val 7) = some c' ∧
      c'.entries = Any.record "a" (Any.val 7) ::
        cacheABC.entries.filter (fun x => decide (x.key? ≠ some "a")) ∧
      (∃ e', c'.queue.Front = some e' ∧ c'.records "a" = some e' ∧
        c'.queue.valueOf e' = Any.record "a" (Any.val 7)) ∧
      c'.Len = cacheABC.Len ∧
      (∀ k', k' ≠ "a" → c'.records k' = cacheABC.records k') ∧
      (∀ x ∈ cacheABC.queue.order, x ≠ 0 →
        x ∈ c'.queue.order ∧ c'.queue.valueOf x = cacheABC.queue.valueOf x) :=
  Set_existing_replaces 3 cacheABC "a" (Any.val 7) 0 reach_ABC (by decide)

/-- C5 (Get hit): in a reachable state whose queue holds the record `(k, v)`, `Get(k)`
returns `(Record{Key: k, Value: v}, true)`; afterwards that record is the front element, the
queue's contents are `(k, v)` followed by the other entries in their former order (so the
contents are a permutation of the former ones), and `Len()`, the key index and every
element's value are unchanged. -/
theorem Get_hit_promotes (capacity : Int) (c : Cache V) (k : String) (v : Any V)
    (hr : Reachable capacity c) (hkv : Any.record k v ∈ c.entries) :
    ∃ (c' : Cache V) (e : Element),
      c.Get k = some ((⟨k, v⟩, true), c') ∧
      c'.queue.Front = some e ∧ c'.queue.valueOf e = Any.record k v ∧
      c'.entries = Any.record k v :: c.entries.filter (fun x => decide (x.key? ≠ some k)) ∧
      c'.entries.Perm c.entries ∧
      c'.Len = c.Len ∧ c'.records = c.records ∧ c'.queue.valueOf = c.queue.valueOf := by
  obtain ⟨h, _⟩ := hr.inv
  obtain ⟨e, he, hv⟩ := List.mem_map.1 hkv
  have hke : c.keyAt e = some k := by
    unfold Cache.keyAt
    rw [hv]
    rfl
  have hk : c.records k = some e := (h.index k e).2 ⟨he, hke⟩
  obtain ⟨v0, hv0, hg⟩ := Get_hit_eq h hk
  have hvv : v0 = v := by
    rw [hv] at hv0
    injection hv0 with _ h2
    exact h2.symm
  subst hvv
  have hval : (promoted c e).queue.valueOf = c.queue.valueOf := MoveToFront_valueOf _ _
  refine ⟨promoted c e, e, hg, ?_, ?_, ?_, ?_, promoted_Len h hk, rfl, hval⟩
  · show (promoted c e).queue.order.head? = some e
    rw [promoted_order h hk]
    rfl
  · rw [hval]
    exact hv
  · rw [promoted_entries h hk, hv]
  · show (((promoted c e).queue.order).map (promoted c e).queue.valueOf).Perm _
    rw [promoted_order h hk, hval]
    exact ((List.perm_cons_erase he).symm).map _

/-- Witness for C5: reading the oldest key of the full cache of capacity 3. -/
theorem Get_hit_promotes_witness :
    ∃ (c' : Cache Int) (e : Element),
      cacheABC.Get "a" = some ((⟨"a", Any.val 1⟩, true), c') ∧
      c'.queue.Front = some e ∧ c'.queue.valueOf e = Any.record "a" (Any.val 1) ∧
      c'.entries = Any.record "a" (Any.val 1) ::
        cacheABC.entries.filter (fun x => decide (x.key? ≠ some "a")) ∧
      c'.entries.Perm cacheABC.entries ∧
      c'.Len = cacheABC.Len ∧ c'.records = cacheABC.records ∧
      c'.queue.valueOf = cacheABC.queue.valueOf :=
  Get_hit_promotes 3 cacheABC "a" (Any.val 1) reach_ABC (by decide)

/-- C6 (idempotent miss): in a reachable state where `k` is absent, `Get(k)` returns
`(Record{}, false)` and the cache afterwards is the very same state, so any later sequence of
calls (evictions included) runs exactly as if the miss had not happened. -/
theorem Get_miss_is_noop (capacity : Int) (c : Cache V) (k : String)
    (hr : Reachable capacity c) (hk : c.records k = none) :
    c.Get k = some ((Record.zero, false), c) ∧
      Record.zero = (⟨"", Any.nil⟩ : Record V) ∧
      ∀ ops : List (Op V), runOps c (Op.get k :: ops) = runOps c ops := by
  have _ := hr
  refine ⟨Get_miss_eq c hk, rfl, ?_⟩
  intro ops
  show ((c.Get k).map Prod.snd).bind (fun c' => runOps c' ops) = _
  rw [Get_miss_eq c hk]
  rfl

/-- Witness for C6: a miss on the full cache of capacity 3. -/
theorem Get_miss_is_noop_witness :
    cacheABC.Get "zz" = some ((Record.zero, false), cacheABC) ∧
      Record.zero = (⟨"", Any.nil⟩ : Record Int) ∧
      ∀ ops : List (Op Int), runOps cacheABC (Op.get "zz" :: ops) = runOps cacheABC ops :=
  Get_miss_is_noop 3 cacheABC "zz" reach_ABC (by decide)

/-- C7 (Remove of a present key): in a reachable state where `k` is present (at element `e`),
`Remove(k)` succeeds, `Len()` drops by exactly 1, `k` has no index entry and `e` is no longer
linked, no queue record has key `k`, a following `Get(k)` returns `(Record{}, false)`, the
queue's contents are the former entries of the other keys in the same order, and the index of
every other key and all element values are unchanged. -/
theorem Remove_present_deletes (capacity : Int) (c : Cache V) (k : String) (e : Element)
    (hr : Reachable capacity c) (hk : c.records k = some e) :
    ∃ c' : Cache V, c.Remove k = some c' ∧
      c'.Len = c.Len - 1 ∧
      c'.records k = none ∧ e ∉ c'.queue.order ∧ some k ∉ c'.keys ∧
      c'.Get k = some ((Record.zero, false), c') ∧
      c'.entries = c.entries.filter (fun x => decide (x.key? ≠ some k)) ∧
      (∀ k', k' ≠ k → c'.records k' = c.records k') ∧
      c'.queue.valueOf = c.queue.valueOf := by
  obtain ⟨h, _⟩ := hr.inv
  have hu : Inv (unlink c k e) := Inv_unlink h hk
  have hnone : (unlink c k e).records k = none := unlink_records_self c k e
  refine ⟨unlink c k e, Remove_hit_eq h hk, unlink_Len h hk, hnone, ?_, ?_,
    Get_miss_eq _ hnone, unlink_entries h hk, ?_, Remove_valueOf _ _⟩
  · show e ∉ (c.queue.Remove e).order
    rw [Remove_order]
    exact h.nodup.not_mem_erase
  · rw [keys_eq, List.mem_map]
    rintro ⟨x, hx, hkx⟩
    have := (hu.index k x).2 ⟨hx, hkx⟩
    rw [hnone] at this
    cases this
  · intro k' hne
    exact unlink_records_ne c k e hne

/-- Witness for C7: removing the middle key of the full cache of capacity 3. -/
theorem Remove_present_deletes_witness :
    ∃ c' : Cache Int, cacheABC.Remove "b" = some c' ∧
      c'.Len = cacheABC.Len - 1 ∧
      c'.records "b" = none ∧ 1 ∉ c'.queue.order ∧ some "b" ∉ c'.keys ∧
      c'.Get "b" = some ((Record.zero, false), c') ∧
      c'.entries = cacheABC.entries.filter (fun x => decide (x.key? ≠ some "b")) ∧
      (∀ k', k' ≠ "b" → c'.records k' = cacheABC.records k') ∧
      c'.queue.valueOf = cacheABC.queue.valueOf :=
  Remove_present_deletes 3 cacheABC "b" 1 reach_ABC (by decide)

/-- C8 (Remove of an absent key): in a reachable state where `k` is absent, `Remove(k)`
succeeds and returns the very same state: key index, queue (front, back, order) and `Len()`
are unchanged. -/
theorem Remove_absent_is_noop (capacity : Int) (c : Cache V) (k : String)
    (hr : Reachable capacity c) (hk : c.records k = none) :
    c.Remove k = some c := by
  have _ := hr
  exact Remove_miss_eq c hk

/-- Witness for C8: removing an unknown key from the full cache of capacity 3. -/
theorem Remove_absent_is_noop_witness : cacheABC.Remove "zz" = some cacheABC :=
  Remove_absent_is_noop 3 cacheABC "zz" reach_ABC (by decide)

/-! ## Keys along a call -/

theorem absent_keys {c : Cache V} (h : Inv c) {k : String} (hk : c.records k = none) :
    some k ∉ c.keys := by
  rw [keys_eq, List.mem_map]
  rintro ⟨x, hx, hkx⟩
  have := (h.index k x).2 ⟨hx, hkx⟩
  rw [hk] at this
  cases this

theorem unlink_keys_sublist {c : Cache V} (h : Inv c) {k : String} {e : Element}
    (hk : c.records k = some e) : (unlink c k e).keys.Sublist c.keys := by
  unfold Cache.keys
  rw [unlink_entries h hk]
  exact (List.filter_sublist _).map _

theorem pushed_keys {c : Cache V} (h : Inv c) (k : String) (v : Any V) :
    (pushed c k v).keys = some k :: c.keys := by
  unfold Cache.keys
  rw [pushed_entries h]
  rfl

/-- A successful `Set(k, v)` leaves `k` in front of a sublist of the former keys. -/
theorem Set_keys {c c' : Cache V} (h : Inv c) {k : String} {v : Any V}
    (hs : c.Set k v = some c') :
    ∃ l, c'.keys = some k :: l ∧ l.Sublist c.keys ∧ some k ∉ l := by
  cases hk : c.records k with
  | some e =>
    rw [Set_hit_eq c v hk] at hs
    cases hs
    have hu := Inv_unlink h hk
    exact ⟨_, pushed_keys hu k v, unlink_keys_sublist h hk,
      absent_keys hu (unlink_records_self c k e)⟩
  | none =>
    by_cases hlen : c.Len = c.capacity
    · obtain ⟨b, kb, vb, _, _, hrb, rfl⟩ := Set_full_some h hk hlen hs
      have hu := Inv_unlink h hrb
      exact ⟨_, pushed_keys hu k v, unlink_keys_sublist h hrb,
        absent_keys hu (unlink_records_none c kb b hk)⟩
    · rw [Set_room_eq c v hk hlen] at hs
      cases hs
      exact ⟨_, pushed_keys h k v, List.Sublist.refl _, absent_keys h hk⟩

theorem promoted_keys {c : Cache V} (h : Inv c) {k : String} {e : Element}
    (hk : c.records k = some e) :
    ∃ l, (promoted c e).keys = some k :: l ∧ l.Sublist c.keys ∧ some k ∉ l := by
  obtain ⟨v0, hv, _⟩ := Get_hit_eq h hk
  refine ⟨(c.entries.filter (fun x => decide (x.key? ≠ some k))).map Any.key?, ?_, ?_, ?_⟩
  · unfold Cache.keys
    rw [promoted_entries h hk, hv]
    rfl
  · exact (List.filter_sublist _).map _
  · rw [List.mem_map]
    rintro ⟨x, hx, hkx⟩
    have := (List.mem_filter.1 hx).2
    simp [hkx] at this

/-- Keys after one call: a touched key moves in front of a sublist of the former keys; without
a touch the keys are a sublist of the former keys. -/
theorem step_keys {c c' : Cache V} (h : Inv c) {op : Op V} (hs : step c op = some c') :
    (∃ k l, touchedKey c op = some k ∧ c'.keys = some k :: l ∧ l.Sublist c.keys ∧ some k ∉ l) ∨
    (touchedKey c op = none ∧ c'.keys.Sublist c.keys) := by
  cases op with
  | set k v =>
    obtain ⟨l, h1, h2, h3⟩ := Set_keys h hs
    exact Or.inl ⟨k, l, rfl, h1, h2, h3⟩
  | get k =>
    have hs : (c.Get k).map Prod.snd = some c' := hs
    cases hk : c.records k with
    | some e =>
      obtain ⟨v0, _, hg⟩ := Get_hit_eq h hk
      rw [hg] at hs
      cases hs
      obtain ⟨l, h1, h2, h3⟩ := promoted_keys h hk
      refine Or.inl ⟨k, l, ?_, h1, h2, h3⟩
      simp only [touchedKey, hg]
    | none =>
      rw [Get_miss_eq c hk] at hs
      cases hs
      refine Or.inr ⟨?_, List.Sublist.refl _⟩
      simp only [touchedKey, Get_miss_eq c hk]
  | remove k =>
    have hs : c.Remove k = some c' := hs
    refine Or.inr ⟨rfl, ?_⟩
    cases hk : c.records k with
    | some e =>
      rw [Remove_hit_eq h hk] at hs
      cases hs
      exact unlink_keys_sublist h hk
    | none =>
      rw [Remove_miss_eq c hk] at hs
      cases hs
      exact List.Sublist.refl _

theorem Timed_step {c c' : Cache V} {t : String → Nat} {now : Nat} (h : Inv c)
    (ht : Timed c t now) {op : Op V} (hs : step c op = some c') :
    Timed c' (touch t now c op) (now + 1) := by
  obtain ⟨hp, hlt⟩ := ht
  rcases step_keys h hs with ⟨k, l, htk, hkeys, hsub, hnot⟩ | ⟨htk, hsub⟩
  · have htouch : touch t now c op = fun k' => if k' = k then now else t k' := by
      unfold touch
      rw [htk]
    have hsame : ∀ x ∈ l, timeOf (touch t now c op) x = timeOf t x := by
      intro x hx
      cases x with
      | none => rfl
      | some k' =>
        have hne : k' ≠ k := by
          rintro rfl
          exact hnot hx
        rw [htouch]
        show (if k' = k then now else t k') = t k'
        rw [if_neg hne]
    have hk : timeOf (touch t now c op) (some k) = now := by
      rw [htouch]
      show (if k = k then now else t k) = now
      rw [if_pos rfl]
    rw [Timed, hkeys]
    refine ⟨List.pairwise_cons.2 ⟨?_, ?_⟩, ?_⟩
    · intro x hx
      rw [hk, hsame x hx]
      exact hlt x (hsub.subset hx)
    · refine (hp.sublist hsub).imp_of_mem ?_
      intro a b ha hb hab
      rw [hsame a ha, hsame b hb]
      exact hab
    · intro x hx
      rcases List.mem_cons.1 hx with rfl | hx
      · rw [hk]
        exact Nat.lt_succ_self _
      · rw [hsame x hx]
        exact Nat.lt_succ_of_lt (hlt x (hsub.subset hx))
  · have htouch : touch t now c op = t := by
      unfold touch
      rw [htk]
    rw [htouch]
    exact ⟨hp.sublist hsub, fun x hx => Nat.lt_succ_of_lt (hlt x (hsub.subset hx))⟩

theorem Timed_run (ops : List (Op V)) {c : Cache V} {t : String → Nat} {now : Nat}
    (h : Inv c) (hb : Bounded c) (ht : Timed c t now) :
    ∃ c' t' now', runTimed c t now ops = some (c', t') ∧ runOps c ops = some c' ∧
      Inv c' ∧ Timed c' t' now' := by
  induction ops generalizing c t now with
  | nil => exact ⟨c, t, now, rfl, rfl, h, ht⟩
  | cons op ops ih =>
    obtain ⟨c1, h1, hb1⟩ := Bounded_step h hb op
    obtain ⟨c2, t2, now2, hr2, ho2, hi2, ht2⟩ := ih (Inv_step h h1).1 hb1 (Timed_step h ht h1)
    refine ⟨c2, t2, now2, ?_, ?_, hi2, ht2⟩
    · unfold runTimed
      rw [h1]
      exact hr2
    · unfold runOps
      rw [h1]
      exact ho2

theorem keys_ne_none {c : Cache V} (h : Inv c) : ∀ x ∈ c.keys, x ≠ none := by
  intro x hx
  rw [keys_eq] at hx
  obtain ⟨e, he, rfl⟩ := List.mem_map.1 hx
  obtain ⟨k, v, hv⟩ := h.isRecord e he
  unfold Cache.keyAt
  rw [hv]
  intro hh
  cases hh

/-- C9 (recency ordering invariant): for `capacity ≥ 1` and any sequence of `Set`, `Get` and
`Remove` calls on a fresh cache, the sequence runs to completion and, with `t k` the time of
the last `Set(k, _)` or successful `Get(k)`, the queue lists its keys in strictly decreasing
order of `t`; hence the front key has the latest touch and the back key the earliest. -/
theorem queue_sorted_by_last_touch (capacity : Int) (hcap : 1 ≤ capacity) (ops : List (Op V)) :
    ∃ (c : Cache V) (t : String → Nat),
      runTimed (NewLRUCache capacity) (fun _ => 0) 1 ops = some (c, t) ∧
      runOps (NewLRUCache capacity) ops = some c ∧
      (∀ x ∈ c.keys, x ≠ none) ∧
      c.keys.Pairwise (fun a b => timeOf t b < timeOf t a) ∧
      (∀ f, c.keys.head? = some f → ∀ x ∈ c.keys, timeOf t x ≤ timeOf t f) ∧
      (∀ b, c.keys.getLast? = some b → ∀ x ∈ c.keys, timeOf t b ≤ timeOf t x) := by
  have h0 : Timed (NewLRUCache capacity : Cache V) (fun _ => 0) 1 :=
    ⟨List.Pairwise.nil, fun x hx => by cases hx⟩
  obtain ⟨c, t, now, hrun, hops, hi, hp, _⟩ :=
    Timed_run ops (Inv_New capacity) (Bounded_New capacity hcap) h0
  refine ⟨c, t, hrun, hops, keys_ne_none hi, hp, ?_, ?_⟩
  · intro f hf x hx
    cases hl : c.keys with
    | nil => rw [hl] at hx; cases hx
    | cons a l =>
      rw [hl] at hf hx hp
      have : a = f := Option.some.inj hf
      subst this
      rcases List.mem_cons.1 hx with rfl | hx
      · exact Nat.le_refl _
      · exact Nat.le_of_lt ((List.pairwise_cons.1 hp).1 x hx)
  · intro b hb x hx
    have hl : c.keys.dropLast ++ [b] = c.keys := List.dropLast_append_getLast? b hb
    rw [← hl] at hx hp
    rcases List.mem_append.1 hx with hx | hx
    · exact Nat.le_of_lt ((List.pairwise_append.1 hp).2.2 x hx b (by simp))
    · rw [List.mem_singleton.1 hx]

/-- Witness for C9: capacity 3, `Set(a,1)`, `Set(b,2)`, `Set(c,3)`, `Get(a)`, `Set(d,4)`. -/
theorem queue_sorted_by_last_touch_witness :
    ∃ (c : Cache Int) (t : String → Nat),
      runTimed (NewLRUCache 3) (fun _ => 0) 1
        (opsABC ++ [Op.get "a", Op.set "d" (Any.val 4)]) = some (c, t) ∧
      runOps (NewLRUCache 3) (opsABC ++ [Op.get "a", Op.set "d" (Any.val 4)]) = some c ∧
      (∀ x ∈ c.keys, x ≠ none) ∧
      c.keys.Pairwise (fun a b => timeOf t b < timeOf t a) ∧
      (∀ f, c.keys.head? = some f → ∀ x ∈ c.keys, timeOf t x ≤ timeOf t f) ∧
      (∀ b, c.keys.getLast? = some b → ∀ x ∈ c.keys, timeOf t b ≤ timeOf t x) :=
  queue_sorted_by_last_touch 3 (by decide) (opsABC ++ [Op.get "a", Op.set "d" (Any.val 4)])

/-! ## Filling a full cache with new keys -/

theorem entries_length (c : Cache V) : ((c.entries.length : Nat) : Int) = c.Len := by
  unfold Cache.entries
  rw [List.length_map]
  rfl

theorem Get_of_mem {c : Cache V} (h : Inv c) {k : String} {v : Any V}
    (hkv : Any.record k v ∈ c.entries) :
    ∃ e, c.records k = some e ∧ c.queue.valueOf e = Any.record k v ∧
      c.Get k = some ((⟨k, v⟩, true), promoted c e) := by
  obtain ⟨e, he, hv⟩ := List.mem_map.1 hkv
  have hke : c.keyAt e = some k := by
    unfold Cache.keyAt
    rw [hv]
    rfl
  have hk : c.records k = some e := (h.index k e).2 ⟨he, hke⟩
  obtain ⟨v0, hv0, hg⟩ := Get_hit_eq h hk
  have hvv : v0 = v := by
    rw [hv] at hv0
    injection hv0 with _ h2
    exact h2.symm
  subst hvv
  exact ⟨e, hk, hv, hg⟩

theorem records_none_of_not_mem_keys {c : Cache V} (h : Inv c) {k : String}
    (hk : some k ∉ c.keys) : c.records k = none := by
  cases hr : c.records k with
  | none => rfl
  | some e =>
    exfalso
    apply hk
    rw [keys_eq, List.mem_map]
    exact ⟨e, (h.index k e).1 hr⟩

theorem Set_full_spec {c : Cache V} (h : Inv c) (hcap : 1 ≤ c.capacity)
    (hlen : c.Len = c.capacity) {k : String} (v : Any V) (hk : c.records k = none) :
    ∃ c', c.Set k v = some c' ∧ Inv c' ∧ c'.capacity = c.capacity ∧ c'.Len = c.Len ∧
      c'.entries = Any.record k v :: c.entries.dropLast ∧
      ∀ k', k' ≠ k → c.records k' = none → c'.records k' = none := by
  obtain ⟨b, kb, vb, hlast, hv, hrb⟩ := back_exists h (order_ne_nil_of_full hcap hlen)
  have hu : Inv (unlink c kb b) := Inv_unlink h hrb
  refine ⟨_, Set_evict_eq v hk hlen hlast hv,
    Inv_pushed hu v (unlink_records_none c kb b hk), rfl, ?_, ?_, ?_⟩
  · rw [pushed_Len, unlink_Len h hrb]
    omega
  · rw [pushed_entries hu, unlink_back_entries h hlast]
  · intro k' hne hnone
    rw [pushed_records_ne _ k v hne]
    exact unlink_records_none c kb b hnone

theorem sets_full (kvs : List (String × Any V)) {c : Cache V} (h : Inv c)
    (hcap : 1 ≤ c.capacity) (hlen : c.Len = c.capacity)
    (hnd : (kvs.map Prod.fst).Nodup) (habs : ∀ p ∈ kvs, c.records p.1 = none)
    (hle : kvs.length ≤ c.entries.length) :
    ∃ c', runOps c (kvs.map setOp) = some c' ∧ Inv c' ∧
      c'.entries = kvs.reverse.map (fun p => Any.record p.1 p.2) ++
        c.entries.take (c.entries.length - kvs.length) := by
  induction kvs generalizing c with
  | nil => exact ⟨c, rfl, h, by simp⟩
  | cons p rest ih =>
    obtain ⟨c1, hs, hi1, hc1, hl1, he1, hr1⟩ :=
      Set_full_spec h hcap hlen p.2 (habs p (List.mem_cons_self _ _))
    have hnd' := List.nodup_cons.1 (by simpa using hnd : (p.1 :: rest.map Prod.fst).Nodup)
    have hlenE : c1.entries.length = c.entries.length := by
      have h1 := entries_length c1
      have h2 := entries_length c
      omega
    have hle' : rest.length + 1 ≤ c.entries.length := by simpa using hle
    obtain ⟨c2, hrun, hi2, he2⟩ := ih hi1 (by rw [hc1]; exact hcap)
      (by rw [hl1, hc1]; exact hlen) hnd'.2
      (by
        intro q hq
        apply hr1 q.1 _ (habs q (List.mem_cons_of_mem _ hq))
        intro heq
        exact hnd'.1 (heq ▸ List.mem_map_of_mem Prod.fst hq))
      (by rw [hlenE]; omega)
    refine ⟨c2, ?_, hi2, ?_⟩
    · show (step c (setOp p)).bind (fun c' => runOps c' (rest.map setOp)) = some c2
      have : step c (setOp p) = some c1 := hs
      rw [this]
      exact hrun
    · rw [he2, hlenE, he1]
      obtain ⟨m, hm⟩ : ∃ m, c.entries.length - rest.length = m + 1 :=
        ⟨c.entries.length - rest.length - 1, by omega⟩
      have hm' : c.entries.length - (p :: rest).length = m := by
        simp only [List.length_cons]
        omega
      rw [hm, hm', List.take_succ_cons, List.dropLast_eq_take, List.take_take,
        Nat.min_eq_left (by omega)]
      simp

/-- C10 (recency refresh on read): in a reachable full cache of capacity `n ≥ 2` holding
`(k, v)`, and for `n` pairwise distinct keys `kvs` that are not in the cache, `Get(k)` succeeds;
after it, any `j < n` of the `Set` calls leave `k` in the cache (`Get(k)` still returns
`(Record{k, v}, true)`), and the `n`-th `Set` evicts `k` (`Get(k)` then returns
`(Record{}, false)`).  In particular with capacity 3, after `Set(a,v1)`, `Set(b,v2)`,
`Set(c,v3)`, `Get(a)`, `Set(d,v4)` the key `b` is gone and `Get(a)` returns `(v1, true)`. -/
theorem Get_refresh_evicted_last (capacity : Int) (c : Cache V) (k : String) (v : Any V)
    (kvs : List (String × Any V)) (hcap : 2 ≤ capacity) (hr : Reachable capacity c)
    (hfull : c.Len = capacity) (hkv : Any.record k v ∈ c.entries)
    (hnd : (kvs.map Prod.fst).Nodup) (habs : ∀ p ∈ kvs, c.records p.1 = none)
    (hlen : (kvs.length : Int) = capacity) :
    ∃ c1 : Cache V, c.Get k = some ((⟨k, v⟩, true), c1) ∧
      (∀ j, j < kvs.length → ∃ c' c'' : Cache V,
        runOps c1 ((kvs.take j).map setOp) = some c' ∧
        c'.Get k = some ((⟨k, v⟩, true), c'')) ∧
      (∃ c' : Cache V, runOps c1 (kvs.map setOp) = some c' ∧ c'.records k = none ∧
        c'.Get k = some ((Record.zero, false), c')) ∧
      (∀ v1 v2 v3 v4 : Any V, ∃ s s' : Cache V,
        runOps (NewLRUCache 3) [Op.set "a" v1, Op.set "b" v2, Op.set "c" v3, Op.get "a",
          Op.set "d" v4] = some s ∧
        s.records "b" = none ∧ s.Get "b" = some ((Record.zero, false), s) ∧
        s.Get "a" = some ((⟨"a", v1⟩, true), s')) := by
  obtain ⟨h, hc⟩ := hr.inv
  obtain ⟨e, hk, hv, hg⟩ := Get_of_mem h hkv
  have hi1 : Inv (promoted c e) := Inv_promoted h hk
  have hcap1 : 1 ≤ (promoted c e).capacity := by
    show 1 ≤ c.capacity
    omega
  have hlen1 : (promoted c e).Len = (promoted c e).capacity := by
    rw [promoted_Len h hk]
    show c.Len = c.capacity
    omega
  have hE := entries_length (promoted c e)
  have hent : ∃ F, (promoted c e).entries = Any.record k v :: F := by
    rw [promoted_entries h hk, hv]
    exact ⟨_, rfl⟩
  obtain ⟨F, hF⟩ := hent
  have hn : (promoted c e).entries.length = kvs.length := by
    rw [promoted_Len h hk] at hE
    omega
  refine ⟨promoted c e, hg, ?_, ?_, ?_⟩
  · intro j hj
    have hjl : (kvs.take j).length = j := by
      rw [List.length_take]
      omega
    obtain ⟨c', hrun, hi', he'⟩ := sets_full (kvs.take j) hi1 hcap1 hlen1
      (hnd.sublist ((List.take_sublist j kvs).map _))
      (fun p hp => habs p (List.mem_of_mem_take hp))
      (by rw [hjl, hn]; omega)
    have hmem : Any.record k v ∈ c'.entries := by
      rw [he', hF, hjl]
      obtain ⟨m, hm⟩ : ∃ m, (Any.record k v :: F).length - j = m + 1 := by
        rw [← hF, hn]
        exact ⟨kvs.length - j - 1, by omega⟩
      rw [hm, List.take_succ_cons]
      simp
    obtain ⟨e', _, _, hg'⟩ := Get_of_mem hi' hmem
    exact ⟨c', _, hrun, hg'⟩
  · obtain ⟨c', hrun, hi', he'⟩ := sets_full kvs hi1 hcap1 hlen1 hnd habs (by rw [hn])
    have hnone : c'.records k = none := by
      apply records_none_of_not_mem_keys hi'
      unfold Cache.keys
      rw [he', hn, Nat.sub_self, List.take_zero, List.append_nil, List.mem_map]
      rintro ⟨x, hx, hkx⟩
      obtain ⟨p, hp, rfl⟩ := List.mem_map.1 hx
      have hpk : p.1 = k := Option.some.inj hkx
      have := habs p (List.mem_reverse.1 hp)
      rw [hpk, hk] at this
      cases this
    exact ⟨c', hrun, hnone, Get_miss_eq c' hnone⟩
  · intro v1 v2 v3 v4
    exact ⟨_, _, rfl, rfl, rfl, rfl⟩

/-- Witness for C10: the full cache of capacity 3, reading `a`, then setting `d`, `e`, `f`. -/
theorem Get_refresh_evicted_last_witness :
    ∃ c1 : Cache Int, cacheABC.Get "a" = some ((⟨"a", Any.val 1⟩, true), c1) ∧
      (∀ j, j < [("d", Any.val 4), ("e", Any.val 5), ("f", Any.val (6 : Int))].length →
        ∃ c' c'' : Cache Int,
        runOps c1 (([("d", Any.val 4), ("e", Any.val 5), ("f", Any.val 6)].take j).map setOp)
          = some c' ∧
        c'.Get "a" = some ((⟨"a", Any.val 1⟩, true), c'')) ∧
      (∃ c' : Cache Int,
        runOps c1 ([("d", Any.val 4), ("e", Any.val 5), ("f", Any.val 6)].map setOp) = some c' ∧
        c'.records "a" = none ∧ c'.Get "a" = some ((Record.zero, false), c')) ∧
      (∀ v1 v2 v3 v4 : Any Int, ∃ s s' : Cache Int,
        runOps (NewLRUCache 3) [Op.set "a" v1, Op.set "b" v2, Op.set "c" v3, Op.get "a",
          Op.set "d" v4] = some s ∧
        s.records "b" = none ∧ s.Get "b" = some ((Record.zero, false), s) ∧
        s.Get "a" = some ((⟨"a", v1⟩, true), s')) :=
  Get_refresh_evicted_last 3 cacheABC "a" (Any.val 1)
    [("d", Any.val 4), ("e", Any.val 5), ("f", Any.val 6)]
    (by decide) reach_ABC (by decide) (by decide) (by decide) (by decide) (by decide)

/-! ## Capacity zero, insertion with room, round trips -/

/-- C11 (capacity 0): on `NewLRUCache(0)` the call `Set("a", 1)` does not complete: the key is
absent and `Len() == capacity`, so the eviction branch dereferences `Back()`, which is nil on
the empty queue, and panics.  The same holds for every key and value. -/
theorem Set_capacity_zero_panics :
    (NewLRUCache 0 : Cache Int).Set "a" (Any.val 1) = none ∧
      (NewLRUCache 0 : Cache Int).queue.Back = none ∧
      ∀ (k : String) (v : Any Int), (NewLRUCache 0 : Cache Int).Set k v = none :=
  ⟨rfl, rfl, fun _ v => Set_evict_empty _ v rfl rfl rfl⟩

/-- C12 (insert into a non-full cache): in a reachable state with `Len() < capacity` where `k`
is absent, `Set(k, v)` succeeds; the new record is the front element and is indexed under `k`;
the queue's contents are `(k, v)` followed by all former entries; `Len()` grows by exactly 1;
the index of every other key and every linked element are untouched; and on an empty queue the
new element is both front and back. -/
theorem Set_new_with_room (capacity : Int) (c : Cache V) (k : String) (v : Any V)
    (hr : Reachable capacity c) (hlen : c.Len < capacity) (hk : c.records k = none) :
    ∃ c' : Cache V, c.Set k v = some c' ∧
      (∃ e, c'.queue.Front = some e ∧ c'.records k = some e ∧
        c'.queue.valueOf e = Any.record k v ∧
        (c.queue.order = [] → c'.queue.Back = some e)) ∧
      c'.entries = Any.record k v :: c.entries ∧
      c'.Len = c.Len + 1 ∧
      (∀ k', k' ≠ k → c'.records k' = c.records k') ∧
      (∀ x ∈ c.queue.order, x ∈ c'.queue.order ∧ c'.queue.valueOf x = c.queue.valueOf x) := by
  obtain ⟨h, hc⟩ := hr.inv
  have hne : c.Len ≠ c.capacity := by
    rw [hc]
    omega
  refine ⟨pushed c k v, Set_room_eq c v hk hne, ?_, pushed_entries h k v, pushed_Len c k v,
    fun k' hk' => pushed_records_ne c k v hk', ?_⟩
  · refine ⟨c.queue.fresh, rfl, ?_, pushed_valueOf_fresh c k v, ?_⟩
    · show mapInsert c.records k c.queue.fresh k = _
      unfold mapInsert
      rw [if_pos rfl]
    · intro hnil
      show (c.queue.fresh :: c.queue.order).getLast? = some c.queue.fresh
      rw [hnil]
      rfl
  · intro x hx
    exact ⟨List.mem_cons_of_mem _ hx, pushed_valueOf h k v hx⟩

/-- Witness for C12: capacity 10 holding `a`, `b`, `c`, then `Set(d,4)`. -/
theorem Set_new_with_room_witness :
    ∃ c' : Cache Int, cacheABC10.Set "d" (Any.val 4) = some c' ∧
      (∃ e, c'.queue.Front = some e ∧ c'.records "d" = some e ∧
        c'.queue.valueOf e = Any.record "d" (Any.val 4) ∧
        (cacheABC10.queue.order = [] → c'.queue.Back = some e)) ∧
      c'.entries = Any.record "d" (Any.val 4) :: cacheABC10.entries ∧
      c'.Len = cacheABC10.Len + 1 ∧
      (∀ k', k' ≠ "d" → c'.records k' = cacheABC10.records k') ∧
      (∀ x ∈ cacheABC10.queue.order,
        x ∈ c'.queue.order ∧ c'.queue.valueOf x = cacheABC10.queue.valueOf x) :=
  Set_new_with_room 10 cacheABC10 "d" (Any.val 4) reach_ABC10 (by decide) (by decide)

theorem Set_entries_head {c c' : Cache V} (h : Inv c) {k : String} {v : Any V}
    (hs : c.Set k v = some c') : ∃ l, c'.entries = Any.record k v :: l := by
  cases hk : c.records k with
  | some e =>
    rw [Set_hit_eq c v hk] at hs
    cases hs
    exact ⟨_, pushed_entries (Inv_unlink h hk) k v⟩
  | none =>
    by_cases hlen : c.Len = c.capacity
    · obtain ⟨b, kb, vb, _, _, hrb, rfl⟩ := Set_full_some h hk hlen hs
      exact ⟨_, pushed_entries (Inv_unlink h hrb) k v⟩
    · rw [Set_room_eq c v hk hlen] at hs
      cases hs
      exact ⟨_, pushed_entries h k v⟩

/-- C14 (Set/Get round trip): for `capacity ≥ 1`, in every reachable state and for every key
and value, `Set(k, v)` succeeds and a `Get(k)` right after it returns
`(Record{Key: k, Value: v}, true)`, whichever branch `Set` took. -/
theorem Set_then_Get (capacity : Int) (c : Cache V) (k : String) (v : Any V)
    (hcap : 1 ≤ capacity) (hr : Reachable capacity c) :
    ∃ c' c'' : Cache V, c.Set k v = some c' ∧ c'.Get k = some ((⟨k, v⟩, true), c'') := by
  obtain ⟨h, hc⟩ := hr.inv
  obtain ⟨ops, hops⟩ := hr
  obtain ⟨c0, hrun, _, hb0⟩ := Bounded_runOps ops (Inv_New capacity)
    (Bounded_New (V := V) capacity hcap)
  have hcc : c0 = c := Option.some.inj (hrun.symm.trans hops)
  subst hcc
  obtain ⟨c', hs, _⟩ := Bounded_step h hb0 (Op.set k v)
  have hs : c0.Set k v = some c' := hs
  obtain ⟨l, hl⟩ := Set_entries_head h hs
  obtain ⟨e, _, _, hg⟩ := Get_of_mem (Inv_Set h hs).1 (k := k) (v := v) (by rw [hl]; simp)
  exact ⟨c', _, hs, hg⟩

/-- Witness for C14: the full cache of capacity 3 and a new key, so `Set` evicts. -/
theorem Set_then_Get_witness :
    ∃ c' c'' : Cache Int, cacheABC.Set "d" (Any.val 4) = some c' ∧
      c'.Get "d" = some ((⟨"d", Any.val 4⟩, true), c'') :=
  Set_then_Get 3 cacheABC "d" (Any.val 4) (by decide) reach_ABC

/-! ## Repeated reads -/

theorem reach_GetTwice : Reachable 10 cacheGetTwice := ⟨opsGetTwice, rfl⟩

theorem MoveToFront_idem (l : GoList V) (e : Element) (he : e ∈ l.order) :
    (l.MoveToFront e).MoveToFront e = l.MoveToFront e := by
  have hord := MoveToFront_order l e he
  show (if e ∉ (l.MoveToFront e).order ∨ (l.MoveToFront e).order.head? = some e
    then l.MoveToFront e else _) = _
  rw [if_pos]
  right
  rw [hord]
  rfl

theorem Get_twice_eq {c : Cache V} (h : Inv c) {k : String} {e : Element}
    (hk : c.records k = some e) {v : Any V} (hv : c.queue.valueOf e = Any.record k v) :
    c.Get k = some ((⟨k, v⟩, true), promoted c e) ∧
      (promoted c e).Get k = some ((⟨k, v⟩, true), promoted c e) := by
  have hval : (promoted c e).queue.valueOf = c.queue.valueOf := MoveToFront_valueOf _ _
  have hg : ∀ d : Cache V, d.records k = some e → d.queue.valueOf e = Any.record k v →
      d.Get k = some ((⟨k, v⟩, true), promoted d e) := by
    intro d h1 h2
    unfold Cache.Get
    simp only [h1, h2, Any.asRecord]
    rfl
  refine ⟨hg c hk hv, ?_⟩
  rw [hg (promoted c e) hk (by rw [hval]; exact hv)]
  have hidem : promoted (promoted c e) e = promoted c e := by
    show ({ promoted c e with queue := (c.queue.MoveToFront e).MoveToFront e } : Cache V) = _
    rw [MoveToFront_idem _ _ ((h.index k e).1 hk).1]
    rfl
  rw [hidem]

/-- C15 (double Get): in every reachable state and for every key `k`, `Get(k)` succeeds with
some result `r` and state `c1`, and a second `Get(k)` made in `c1` returns the same `r` and
leaves the state `c1` exactly as it is. -/
theorem Get_twice_same (capacity : Int) (c : Cache V) (k : String)
    (hr : Reachable capacity c) :
    ∃ (r : Record V × Bool) (c1 : Cache V),
      c.Get k = some (r, c1) ∧ c1.Get k = some (r, c1) := by
  obtain ⟨h, _⟩ := hr.inv
  cases hk : c.records k with
  | some e =>
    obtain ⟨v0, hv, _⟩ := Get_hit_eq h hk
    obtain ⟨h1, h2⟩ := Get_twice_eq h hk hv
    exact ⟨_, _, h1, h2⟩
  | none => exact ⟨_, _, Get_miss_eq c hk, Get_miss_eq c hk⟩

/-- Witness for C15: reading the oldest key of the full cache of capacity 3 twice. -/
theorem Get_twice_same_witness :
    ∃ (r : Record Int × Bool) (c1 : Cache Int),
      cacheABC.Get "a" = some (r, c1) ∧ c1.Get "a" = some (r, c1) :=
  Get_twice_same 3 cacheABC "a" reach_ABC

/-- C16, as stated, fails: in the state of the test (capacity 10 after `Set("key",15)`,
`Set("key2",12)`, `Set("key1",20)`, `Set("key3",13)`) both `Get("key")` calls return the record
with value 15 and the flag `true`; no `Get("key")` there returns the flag `false`. -/
theorem Get_twice_flag_not_false :
    (cacheGetTwice.Get "key").map (fun p => p.1) = some (⟨"key", Any.val 15⟩, true) ∧
      ((cacheGetTwice.Get "key").bind fun p => (p.2.Get "key").map fun q => q.1) =
        some (⟨"key", Any.val 15⟩, true) ∧
      ¬ ∃ (r : Record Int) (s : Cache Int), cacheGetTwice.Get "key" = some ((r, false), s) := by
  refine ⟨rfl, rfl, ?_⟩
  rintro ⟨r, s, hg⟩
  have hflag : (cacheGetTwice.Get "key").map (fun p => p.1.2) = some true := rfl
  rw [hg] at hflag
  cases hflag

/-- C16, amended: in a reachable state whose queue holds the record `(k, v)`, two successive
calls `Get(k)` each return a `Record` with key `k` and value `v` and the flag `true`. -/
theorem Get_twice_found (capacity : Int) (c : Cache V) (k : String) (v : Any V)
    (hr : Reachable capacity c) (hkv : Any.record k v ∈ c.entries) :
    ∃ c1 c2 : Cache V, c.Get k = some ((⟨k, v⟩, true), c1) ∧
      c1.Get k = some ((⟨k, v⟩, true), c2) := by
  obtain ⟨h, _⟩ := hr.inv
  obtain ⟨e, hk, hv, _⟩ := Get_of_mem h hkv
  obtain ⟨h1, h2⟩ := Get_twice_eq h hk hv
  exact ⟨_, _, h1, h2⟩

/-- Witness for the amended C16: the state of the test, key `"key"` with value 15. -/
theorem Get_twice_found_witness :
    ∃ c1 c2 : Cache Int, cacheGetTwice.Get "key" = some ((⟨"key", Any.val 15⟩, true), c1) ∧
      c1.Get "key" = some ((⟨"key", Any.val 15⟩, true), c2) :=
  Get_twice_found 10 cacheGetTwice "key" (Any.val 15) reach_GetTwice (by decide)

/-! ## Filling a fresh cache -/

theorem take_append_take {α : Type} (A B : List α) (n : Nat) :
    (A ++ B.take n).take n = (A ++ B).take n := by
  rw [List.take_append_eq_append_take, List.take_append_eq_append_take, List.take_take,
    Nat.min_eq_left (Nat.sub_le _ _)]

theorem isSome_iff_mem_keys {c : Cache V} (h : Inv c) (k : String) :
    (c.records k).isSome ↔ some k ∈ c.keys := by
  rw [keys_eq, List.mem_map]
  constructor
  · intro hs
    obtain ⟨e, he⟩ := Option.isSome_iff_exists.1 hs
    exact ⟨e, (h.index k e).1 he⟩
  · rintro ⟨e, he, hke⟩
    rw [(h.index k e).2 ⟨he, hke⟩]
    rfl

/-- A `Set` of an absent key within bounds: the new record goes in front and the contents are
cut to the capacity. -/
theorem Set_absent_spec {c : Cache V} (h : Inv c) (hb : Bounded c) {k : String} (v : Any V)
    (hk : c.records k = none) :
    ∃ c', c.Set k v = some c' ∧ Inv c' ∧ Bounded c' ∧ c'.capacity = c.capacity ∧
      c'.entries = (Any.record k v :: c.entries).take c.capacity.toNat ∧
      ∀ k', k' ≠ k → c.records k' = none → c'.records k' = none := by
  obtain ⟨c', hs, hb'⟩ := Bounded_step h hb (Op.set k v)
  have hs : c.Set k v = some c' := hs
  obtain ⟨hi', hc'⟩ := Inv_Set h hs
  have hE := entries_length c
  refine ⟨c', hs, hi', hb', hc', ?_⟩
  by_cases hlen : c.Len = c.capacity
  · obtain ⟨c2, hs2, _, _, _, he2, hr2⟩ := Set_full_spec h hb.1 hlen v hk
    have hcc : c2 = c' := Option.some.inj (hs2.symm.trans hs)
    subst hcc
    refine ⟨?_, hr2⟩
    rw [he2]
    obtain ⟨m, hm⟩ : ∃ m, c.capacity.toNat = m + 1 := ⟨c.capacity.toNat - 1, by
      have := hb.1
      omega⟩
    have hml : m = c.entries.length - 1 := by omega
    rw [hm, List.take_succ_cons, hml, List.dropLast_eq_take]
  · rw [Set_room_eq c v hk hlen] at hs
    cases hs
    refine ⟨?_, ?_⟩
    · rw [pushed_entries h k v, List.take_of_length_le]
      have := hb.2
      simp only [List.length_cons]
      omega
    · intro k' hne hnone
      rw [pushed_records_ne c k v hne]
      exact hnone

theorem sets_from (kvs : List (String × Any V)) {c : Cache V} (h : Inv c) (hb : Bounded c)
    (hnd : (kvs.map Prod.fst).Nodup) (habs : ∀ p ∈ kvs, c.records p.1 = none) :
    ∃ c', runOps c (kvs.map setOp) = some c' ∧ Inv c' ∧ c'.capacity = c.capacity ∧
      c'.entries = (kvs.reverse.map (fun p => Any.record p.1 p.2) ++ c.entries).take
        c.capacity.toNat := by
  induction kvs generalizing c with
  | nil =>
    refine ⟨c, rfl, h, rfl, ?_⟩
    have := entries_length c
    have := hb.2
    rw [List.reverse_nil, List.map_nil, List.nil_append, List.take_of_length_le]
    omega
  | cons p rest ih =>
    obtain ⟨c1, hs, hi1, hb1, hc1, he1, hr1⟩ :=
      Set_absent_spec h hb p.2 (habs p (List.mem_cons_self _ _))
    have hnd' := List.nodup_cons.1 (by simpa using hnd : (p.1 :: rest.map Prod.fst).Nodup)
    obtain ⟨c2, hrun, hi2, hc2, he2⟩ := ih hi1 hb1 hnd'.2
      (by
        intro q hq
        apply hr1 q.1 _ (habs q (List.mem_cons_of_mem _ hq))
        intro heq
        exact hnd'.1 (heq ▸ List.mem_map_of_mem Prod.fst hq))
    refine ⟨c2, ?_, hi2, hc2.trans hc1, ?_⟩
    · show (step c (setOp p)).bind (fun c' => runOps c' (rest.map setOp)) = some c2
      have : step c (setOp p) = some c1 := hs
      rw [this]
      exact hrun
    · rw [he2, he1, hc1, take_append_take]
      simp

/-- C13 (Len counts entries): a freshly constructed cache has `Len() == 0`; for
`capacity ≥ 1`, `n` calls of `Set` with pairwise distinct keys on a fresh cache all succeed and
leave `Len() == min(n, capacity)`, the queue holding exactly the last `min(n, capacity)`
records set, most recent first, and the key index holding exactly their keys.  (`Len` is a
function of the state alone: it has no state to return.) -/
theorem Len_counts_entries (capacity : Int) (hcap : 1 ≤ capacity)
    (kvs : List (String × Any V)) (hnd : (kvs.map Prod.fst).Nodup) :
    (∀ cap : Int, (NewLRUCache cap : Cache V).Len = 0) ∧
    ∃ c : Cache V, runOps (NewLRUCache capacity) (kvs.map setOp) = some c ∧
      c.Len = min (kvs.length : Int) capacity ∧
      c.entries = (kvs.reverse.take (min kvs.length capacity.toNat)).map
        (fun p => Any.record p.1 p.2) ∧
      ∀ k, (c.records k).isSome ↔
        k ∈ (kvs.reverse.take (min kvs.length capacity.toNat)).map Prod.fst := by
  refine ⟨fun _ => rfl, ?_⟩
  obtain ⟨c, hrun, hi, _, he⟩ := sets_from kvs (Inv_New capacity)
    (Bounded_New (V := V) capacity hcap) hnd (fun _ _ => rfl)
  have htake : kvs.reverse.take (min kvs.length capacity.toNat) =
      kvs.reverse.take capacity.toNat := by
    by_cases hle : capacity.toNat ≤ kvs.length
    · rw [Nat.min_eq_right hle]
    · rw [Nat.min_eq_left (by omega), List.take_of_length_le (by simp),
        List.take_of_length_le (by simp; omega)]
  have he' : c.entries = (kvs.reverse.take (min kvs.length capacity.toNat)).map
      (fun p => Any.record p.1 p.2) := by
    rw [he, htake]
    show (kvs.reverse.map _ ++ ([] : List (Any V))).take capacity.toNat = _
    rw [List.append_nil, List.map_take]
  refine ⟨c, hrun, ?_, he', ?_⟩
  · rw [← entries_length, he', List.length_map, List.length_take, List.length_reverse]
    omega
  · intro k
    rw [isSome_iff_mem_keys hi]
    unfold Cache.keys
    rw [he', List.map_map, List.mem_map, List.mem_map]
    constructor
    · rintro ⟨p, hp, hk⟩
      exact ⟨p, hp, Option.some.inj hk⟩
    · rintro ⟨p, hp, hk⟩
      exact ⟨p, hp, congrArg some hk⟩

/-- Witness for C13: capacity 3 and the four keys `a`, `b`, `c`, `d`. -/
theorem Len_counts_entries_witness :
    (∀ cap : Int, (NewLRUCache cap : Cache Int).Len = 0) ∧
    ∃ c : Cache Int,
      runOps (NewLRUCache 3)
        ([("a", Any.val 1), ("b", Any.val 2), ("c", Any.val 3), ("d", Any.val 4)].map setOp)
          = some c ∧
      c.Len = min
        (([("a", Any.val 1), ("b", Any.val 2), ("c", Any.val 3),
          ("d", Any.val (4 : Int))].length : Nat) : Int) 3 ∧
      c.entries =
        (([("a", Any.val 1), ("b", Any.val 2), ("c", Any.val 3), ("d", Any.val 4)].reverse.take
          (min [("a", Any.val 1), ("b", Any.val 2), ("c", Any.val 3),
            ("d", Any.val (4 : Int))].length (3 : Int).toNat)).map
          (fun p => Any.record p.1 p.2)) ∧
      ∀ k, (c.records k).isSome ↔
        k ∈ ([("a", Any.val 1), ("b", Any.val 2), ("c", Any.val 3),
          ("d", Any.val (4 : Int))].reverse.take
          (min [("a", Any.val 1), ("b", Any.val 2), ("c", Any.val 3),
            ("d", Any.val (4 : Int))].length (3 : Int).toNat)).map Prod.fst :=
  Len_counts_entries 3 (by decide)
    [("a", Any.val 1), ("b", Any.val 2), ("c", Any.val 3), ("d", Any.val 4)] (by decide)

/-! ## Absence of panics, and undoing an insertion -/

theorem asRecord_of_record {x : Any V} {k : String} {v : Any V} (hx : x = Any.record k v) :
    x.asRecord = some ⟨k, v⟩ := by
  rw [hx]
  rfl

theorem mapDelete_absent {α : Type} (m : String → Option α) (k : String) (hk : m k = none) :
    mapDelete m k = m := by
  funext k'
  unfold mapDelete
  split
  · rename_i h
    rw [h, hk]
  · rfl

/-- C19 (no failing branch at capacity ≥ 1): in every state reachable from
`NewLRUCache(capacity)` with `capacity ≥ 1`, whenever `Set` would take its eviction branch
(key absent, `Len() == capacity`) `Back()` is a non-nil element holding a `Record`; every
queue element holds a `Record`; the element found through `records[k]` holds a `Record` whose
`Key` is `k`; hence `Set`, `Get` and `Remove` never panic, and `Remove(k)` deletes exactly the
index entry of `k`. -/
theorem no_failing_branch (capacity : Int) (c : Cache V) (hcap : 1 ≤ capacity)
    (hr : Reachable capacity c) :
    (∀ k, c.records k = none → c.Len = c.capacity →
      ∃ b r, c.queue.Back = some b ∧ (c.queue.valueOf b).asRecord = some r) ∧
    (∀ e ∈ c.queue.order, ∃ r, (c.queue.valueOf e).asRecord = some r) ∧
    (∀ k e, c.records k = some e →
      ∃ r, (c.queue.valueOf e).asRecord = some r ∧ r.Key = k) ∧
    (∀ k v, ∃ c', c.Set k v = some c') ∧
    (∀ k, ∃ r c', c.Get k = some (r, c')) ∧
    (∀ k, ∃ c', c.Remove k = some c' ∧ c'.records = mapDelete c.records k) := by
  obtain ⟨h, hc⟩ := hr.inv
  have hcap' : 1 ≤ c.capacity := by rw [hc]; exact hcap
  obtain ⟨ops, hops⟩ := hr
  obtain ⟨c0, hrun, _, hb0⟩ := Bounded_runOps ops (Inv_New capacity)
    (Bounded_New (V := V) capacity hcap)
  have hcc : c0 = c := Option.some.inj (hrun.symm.trans hops)
  subst hcc
  refine ⟨?_, ?_, ?_, ?_, ?_, ?_⟩
  · intro k _ hlen
    obtain ⟨b, kb, vb, hlast, hv, _⟩ := back_exists h (order_ne_nil_of_full hcap' hlen)
    exact ⟨b, ⟨kb, vb⟩, hlast, asRecord_of_record hv⟩
  · intro e he
    obtain ⟨k, v, hv⟩ := h.isRecord e he
    exact ⟨⟨k, v⟩, asRecord_of_record hv⟩
  · intro k e hk
    obtain ⟨v0, hv, _⟩ := Get_hit_eq h hk
    exact ⟨⟨k, v0⟩, asRecord_of_record hv, rfl⟩
  · intro k v
    obtain ⟨c', hs, _⟩ := Bounded_step h hb0 (Op.set k v)
    exact ⟨c', hs⟩
  · intro k
    cases hk : c0.records k with
    | some e =>
      obtain ⟨v0, _, hg⟩ := Get_hit_eq h hk
      exact ⟨_, _, hg⟩
    | none => exact ⟨_, _, Get_miss_eq c0 hk⟩
  · intro k
    cases hk : c0.records k with
    | some e => exact ⟨_, Remove_hit_eq h hk, rfl⟩
    | none => exact ⟨_, Remove_miss_eq c0 hk, (mapDelete_absent _ k hk).symm⟩

/-- Witness for C19: the full cache of capacity 3. -/
theorem no_failing_branch_witness :
    (∀ k, cacheABC.records k = none → cacheABC.Len = cacheABC.capacity →
      ∃ b r, cacheABC.queue.Back = some b ∧ (cacheABC.queue.valueOf b).asRecord = some r) ∧
    (∀ e ∈ cacheABC.queue.order, ∃ r, (cacheABC.queue.valueOf e).asRecord = some r) ∧
    (∀ k e, cacheABC.records k = some e →
      ∃ r, (cacheABC.queue.valueOf e).asRecord = some r ∧ r.Key = k) ∧
    (∀ k v, ∃ c', cacheABC.Set k v = some c') ∧
    (∀ k, ∃ r c', cacheABC.Get k = some (r, c')) ∧
    (∀ k, ∃ c', cacheABC.Remove k = some c' ∧ c'.records = mapDelete cacheABC.records k) :=
  no_failing_branch 3 cacheABC (by decide) reach_ABC

/-- C20 (Set then Remove undoes an insertion): in a reachable state with `Len() < capacity`
where `k` is absent, `Set(k, v)` followed by `Remove(k)` succeeds and restores the key index,
the queue (same elements in the same order, same front and back, same values) and `Len()`;
only the unlinked element that `Set` allocated remains behind. -/
theorem Set_then_Remove_restores (capacity : Int) (c : Cache V) (k : String) (v : Any V)
    (hr : Reachable capacity c) (hlen : c.Len < capacity) (hk : c.records k = none) :
    ∃ c' c'' : Cache V, c.Set k v = some c' ∧ c'.Remove k = some c'' ∧
      c''.records = c.records ∧ c''.queue.order = c.queue.order ∧
      (∀ e ∈ c.queue.order, c''.queue.valueOf e = c.queue.valueOf e) ∧
      c''.entries = c.entries ∧ c''.queue.Front = c.queue.Front ∧
      c''.queue.Back = c.queue.Back ∧ c''.Len = c.Len ∧ c''.capacity = c.capacity := by
  obtain ⟨h, hc⟩ := hr.inv
  have hne : c.Len ≠ c.capacity := by
    rw [hc]
    omega
  have hi1 : Inv (pushed c k v) := Inv_pushed h v hk
  have hk1 : (pushed c k v).records k = some c.queue.fresh := by
    show mapInsert c.records k c.queue.fresh k = _
    unfold mapInsert
    rw [if_pos rfl]
  have hord : (unlink (pushed c k v) k c.queue.fresh).queue.order = c.queue.order := by
    show ((pushed c k v).queue.Remove c.queue.fresh).order = _
    rw [Remove_order]
    show (c.queue.fresh :: c.queue.order).erase c.queue.fresh = _
    rw [List.erase_cons_head]
  have hval : ∀ e ∈ c.queue.order,
      (unlink (pushed c k v) k c.queue.fresh).queue.valueOf e = c.queue.valueOf e := by
    intro e he
    show ((pushed c k v).queue.Remove c.queue.fresh).valueOf e = _
    rw [Remove_valueOf]
    exact pushed_valueOf h k v he
  refine ⟨pushed c k v, unlink (pushed c k v) k c.queue.fresh, Set_room_eq c v hk hne,
    Remove_hit_eq hi1 hk1, ?_, hord, hval, ?_, ?_, ?_, ?_, rfl⟩
  · funext k'
    show mapDelete (mapInsert c.records k c.queue.fresh) k k' = _
    unfold mapDelete mapInsert
    by_cases hkk : k' = k
    · rw [if_pos hkk, hkk, hk]
    · rw [if_neg hkk, if_neg hkk]
  · unfold Cache.entries
    rw [hord]
    exact List.map_congr_left hval
  · show (unlink (pushed c k v) k c.queue.fresh).queue.order.head? = _
    rw [hord]
    rfl
  · show (unlink (pushed c k v) k c.queue.fresh).queue.order.getLast? = _
    rw [hord]
    rfl
  · show (((unlink (pushed c k v) k c.queue.fresh).queue.order.length : Nat) : Int) = _
    rw [hord]
    rfl

/-- Witness for C20: capacity 10 holding `a`, `b`, `c`; `Set(d,4)` then `Remove(d)`. -/
theorem Set_then_Remove_restores_witness :
    ∃ c' c'' : Cache Int, cacheABC10.Set "d" (Any.val 4) = some c' ∧
      c'.Remove "d" = some c'' ∧
      c''.records = cacheABC10.records ∧ c''.queue.order = cacheABC10.queue.order ∧
      (∀ e ∈ cacheABC10.queue.order, c''.queue.valueOf e = cacheABC10.queue.valueOf e) ∧
      c''.entries = cacheABC10.entries ∧ c''.queue.Front = cacheABC10.queue.Front ∧
      c''.queue.Back = cacheABC10.queue.Back ∧ c''.Len = cacheABC10.Len ∧
      c''.capacity = cacheABC10.capacity :=
  Set_then_Remove_restores 10 cacheABC10 "d" (Any.val 4) reach_ABC10 (by decide) (by decide)

/-! ## Refinement of the list model -/

theorem pairsOf_map_boxPair (A : List (String × Any V)) : pairsOf (A.map boxPair) = A := by
  induction A with
  | nil => rfl
  | cons p A ih =>
    show pairsOf (boxPair p :: A.map boxPair) = _
    unfold pairsOf at ih ⊢
    rw [List.filterMap_cons]
    show p :: _ = _
    rw [ih]

theorem entries_eq_map_abs {c : Cache V} (h : Inv c) : c.entries = c.abs.map boxPair := by
  have hrec : ∀ x ∈ c.entries, ∃ k v, x = Any.record k v := by
    intro x hx
    obtain ⟨e, he, rfl⟩ := List.mem_map.1 hx
    exact h.isRecord e he
  unfold Cache.abs
  generalize c.entries = E at hrec
  induction E with
  | nil => rfl
  | cons x E ih =>
    obtain ⟨k, v, rfl⟩ := hrec _ (List.mem_cons_self _ _)
    have ih' := ih (fun y hy => hrec y (List.mem_cons_of_mem _ hy))
    show _ = (pairsOf (Any.record k v :: E)).map boxPair
    have : pairsOf (Any.record k v :: E) = (k, v) :: pairsOf E := by
      unfold pairsOf
      rw [List.filterMap_cons]
      rfl
    rw [this, List.map_cons, ← ih']
    rfl

theorem pairsOf_filter (E : List (Any V)) (k : String) :
    pairsOf (E.filter (fun x => decide (x.key? ≠ some k))) =
      (pairsOf E).filter (fun p => decide (p.1 ≠ k)) := by
  induction E with
  | nil => rfl
  | cons x E ih =>
    cases x with
    | nil =>
      have h1 : pairsOf (Any.nil :: E) = pairsOf E := rfl
      have h2 : (Any.nil :: E).filter (fun x => decide (x.key? ≠ some k)) =
          Any.nil :: E.filter (fun x => decide (x.key? ≠ some k)) := by
        rw [List.filter_cons_of_pos]
        simp [Any.key?]
      rw [h1, h2, ← ih]
      rfl
    | val a =>
      have h1 : pairsOf (Any.val a :: E) = pairsOf E := rfl
      have h2 : (Any.val a :: E).filter (fun x => decide (x.key? ≠ some k)) =
          Any.val a :: E.filter (fun x => decide (x.key? ≠ some k)) := by
        rw [List.filter_cons_of_pos]
        simp [Any.key?]
      rw [h1, h2, ← ih]
      rfl
    | record k' v' =>
      have h1 : pairsOf (Any.record k' v' :: E) = (k', v') :: pairsOf E := rfl
      rw [h1]
      by_cases hk : k' = k
      · rw [List.filter_cons_of_neg (by simp [Any.key?, hk]),
          List.filter_cons_of_neg (by simp [hk]), ih]
      · rw [List.filter_cons_of_pos (by simp [Any.key?, hk]),
          List.filter_cons_of_pos (by simp [hk]), ← ih]
        rfl

theorem abs_pushed {c : Cache V} (h : Inv c) (k : String) (v : Any V) :
    (pushed c k v).abs = (k, v) :: c.abs := by
  unfold Cache.abs
  rw [pushed_entries h k v]
  rfl

theorem abs_unlink {c : Cache V} (h : Inv c) {k : String} {e : Element}
    (hk : c.records k = some e) :
    (unlink c k e).abs = c.abs.filter (fun p => decide (p.1 ≠ k)) := by
  unfold Cache.abs
  rw [unlink_entries h hk, pairsOf_filter]

theorem abs_unlink_back {c : Cache V} (h : Inv c) {kb : String} {b : Element}
    (hb : c.queue.order.getLast? = some b) : (unlink c kb b).abs = c.abs.dropLast := by
  have h1 : (unlink c kb b).entries = c.abs.dropLast.map boxPair := by
    rw [unlink_back_entries h hb, entries_eq_map_abs h, List.map_dropLast]
  unfold Cache.abs at h1 ⊢
  rw [h1, pairsOf_map_boxPair]

theorem abs_promoted {c : Cache V} (h : Inv c) {k : String} {e : Element}
    (hk : c.records k = some e) {v : Any V} (hv : c.queue.valueOf e = Any.record k v) :
    (promoted c e).abs = (k, v) :: c.abs.filter (fun p => decide (p.1 ≠ k)) := by
  unfold Cache.abs
  rw [promoted_entries h hk, hv, ← pairsOf_filter]
  rfl

theorem abs_length {c : Cache V} (h : Inv c) : ((c.abs.length : Nat) : Int) = c.Len := by
  rw [← entries_length, entries_eq_map_abs h, List.length_map]

theorem mem_abs {c : Cache V} (h : Inv c) {k : String} {e : Element}
    (hk : c.records k = some e) {v : Any V} (hv : c.queue.valueOf e = Any.record k v) :
    (k, v) ∈ c.abs := by
  have hmem : Any.record k v ∈ c.entries := by
    rw [← hv]
    exact List.mem_map_of_mem _ ((h.index k e).1 hk).1
  rw [entries_eq_map_abs h] at hmem
  obtain ⟨p, hp, hbox⟩ := List.mem_map.1 hmem
  have : p = (k, v) := by
    obtain ⟨a, b⟩ := p
    unfold boxPair at hbox
    injection hbox with h1 h2
    exact Prod.ext h1 h2
  rw [← this]
  exact hp

theorem abs_keys {c : Cache V} (h : Inv c) : c.keys = (c.abs.map Prod.fst).map some := by
  unfold Cache.keys
  rw [entries_eq_map_abs h, List.map_map, List.map_map]
  rfl

theorem abs_absent {c : Cache V} (h : Inv c) {k : String} (hk : c.records k = none) :
    ∀ p ∈ c.abs, p.1 ≠ k := by
  intro p hp hpk
  apply absent_keys h hk
  rw [abs_keys h]
  exact List.mem_map_of_mem _ (hpk ▸ List.mem_map_of_mem Prod.fst hp)

theorem abs_nodup {c : Cache V} (h : Inv c) : (c.abs.map Prod.fst).Nodup := by
  have := h.keysNodup
  rw [← keys_eq, abs_keys h] at this
  exact List.Nodup.of_map _ this

theorem ListModel.Set_capacity (m : ListModel V) (k : String) (v : Any V) :
    (m.Set k v).capacity = m.capacity := by
  unfold ListModel.Set
  split
  · rfl
  · split <;> rfl

theorem ListModel.Get_capacity (m : ListModel V) (k : String) :
    (m.Get k).2.capacity = m.capacity := by
  unfold ListModel.Get
  split <;> rfl

theorem Set_abs {c c' : Cache V} {m : ListModel V} (h : Inv c) (habs : c.abs = m.items)
    (hcap : c.capacity = m.capacity) {k : String} {v : Any V} (hs : c.Set k v = some c') :
    c'.abs = (m.Set k v).items := by
  cases hk : c.records k with
  | some e =>
    rw [Set_hit_eq c v hk] at hs
    cases hs
    obtain ⟨v0, hv, _⟩ := Get_hit_eq h hk
    have hany : m.items.any (fun p => decide (p.1 = k)) = true := by
      rw [List.any_eq_true]
      exact ⟨(k, v0), habs ▸ mem_abs h hk hv, by simp⟩
    unfold ListModel.Set
    rw [if_pos hany, abs_pushed (Inv_unlink h hk), abs_unlink h hk, habs]
  | none =>
    have hany : ¬ m.items.any (fun p => decide (p.1 = k)) = true := by
      rw [List.any_eq_true]
      rintro ⟨p, hp, hpk⟩
      exact abs_absent h hk p (habs ▸ hp) (by simpa using hpk)
    have hlenEq : ((m.items.length : Nat) : Int) = m.capacity ↔ c.Len = c.capacity := by
      rw [← habs, abs_length h, hcap]
    unfold ListModel.Set
    rw [if_neg hany]
    by_cases hlen : c.Len = c.capacity
    · obtain ⟨b, kb, vb, hlast, _, hrb, rfl⟩ := Set_full_some h hk hlen hs
      rw [if_pos (hlenEq.2 hlen), abs_pushed (Inv_unlink h hrb), abs_unlink_back h hlast, habs]
    · rw [Set_room_eq c v hk hlen] at hs
      cases hs
      rw [if_neg (fun hh => hlen (hlenEq.1 hh)), abs_pushed h, habs]

theorem Get_abs {c c' : Cache V} {m : ListModel V} (h : Inv c) (habs : c.abs = m.items)
    {k : String} {r : Record V × Bool} (hs : c.Get k = some (r, c')) :
    r = (m.Get k).1 ∧ c'.abs = (m.Get k).2.items := by
  cases hk : c.records k with
  | some e =>
    obtain ⟨v0, hv, hg⟩ := Get_hit_eq h hk
    rw [hg] at hs
    cases hs
    have hmem : (k, v0) ∈ m.items := habs ▸ mem_abs h hk hv
    have hnd : (m.items.map Prod.fst).Nodup := habs ▸ abs_nodup h
    cases hf : m.items.find? (fun p => decide (p.1 = k)) with
    | none =>
      have := List.find?_eq_none.1 hf (k, v0) hmem
      simp at this
    | some p =>
      have hp : p ∈ m.items := List.mem_of_find?_eq_some hf
      have hpk : p.1 = k := by simpa using List.find?_some hf
      have hpe : p = (k, v0) := by
        have hinj := List.inj_on_of_nodup_map hnd hp hmem hpk
        exact hinj
      subst hpe
      unfold ListModel.Get
      rw [hf]
      exact ⟨rfl, by rw [abs_promoted h hk hv, habs]⟩
  | none =>
    rw [Get_miss_eq c hk] at hs
    cases hs
    have hf : m.items.find? (fun p => decide (p.1 = k)) = none := by
      rw [List.find?_eq_none]
      intro p hp
      have := abs_absent h hk p (habs ▸ hp)
      simpa using this
    unfold ListModel.Get
    rw [hf]
    exact ⟨rfl, habs⟩

theorem Remove_abs {c c' : Cache V} {m : ListModel V} (h : Inv c) (habs : c.abs = m.items)
    {k : String} (hs : c.Remove k = some c') : c'.abs = (m.Remove k).items := by
  show _ = m.items.filter (fun p => decide (p.1 ≠ k))
  cases hk : c.records k with
  | some e =>
    rw [Remove_hit_eq h hk] at hs
    cases hs
    rw [abs_unlink h hk, habs]
  | none =>
    rw [Remove_miss_eq c hk] at hs
    cases hs
    rw [← habs]
    symm
    rw [List.filter_eq_self]
    intro p hp
    simpa using abs_absent h hk p hp

theorem Refines_Len {c : Cache V} {m : ListModel V} (hr : Refines c m) : c.Len = m.Len := by
  obtain ⟨h, _, habs, _⟩ := hr
  rw [← abs_length h, habs]
  rfl

theorem Refines_step {c : Cache V} {m : ListModel V} (hr : Refines c m) (op : Op V) :
    ∃ c', stepObs c op = some ((modelStep m op).1, c') ∧ step c op = some c' ∧
      Refines c' (modelStep m op).2 := by
  obtain ⟨h, hb, habs, hcap⟩ := hr
  obtain ⟨c', hstep, hb'⟩ := Bounded_step h hb op
  obtain ⟨hi', hc'⟩ := Inv_step h hstep
  cases op with
  | set k v =>
    have hs : c.Set k v = some c' := hstep
    refine ⟨c', ?_, hstep, hi', hb', Set_abs h habs hcap hs, ?_⟩
    · show (c.Set k v).map (fun c' => (none, c')) = _
      rw [hs]
      rfl
    · rw [hc', hcap]
      exact (ListModel.Set_capacity m k v).symm
  | get k =>
    have hs : (c.Get k).map Prod.snd = some c' := hstep
    cases hg : c.Get k with
    | none => rw [hg] at hs; cases hs
    | some p =>
      obtain ⟨r, c2⟩ := p
      rw [hg] at hs
      cases hs
      obtain ⟨hr1, hr2⟩ := Get_abs h habs hg
      refine ⟨c2, ?_, hstep, hi', hb', hr2, ?_⟩
      · show (c.Get k).map (fun p => (some p.1, p.2)) = _
        rw [hg, hr1]
        rfl
      · rw [hc', hcap]
        exact (ListModel.Get_capacity m k).symm
  | remove k =>
    have hs : c.Remove k = some c' := hstep
    refine ⟨c', ?_, hstep, hi', hb', Remove_abs h habs hs, ?_⟩
    · show (c.Remove k).map (fun c' => (none, c')) = _
      rw [hs]
      rfl
    · rw [hc', hcap]
      rfl

theorem Refines_run (ops : List (Op V)) {c : Cache V} {m : ListModel V} (hr : Refines c m) :
    runObs c ops = some (modelObs m ops) ∧
      ∃ c', runOps c ops = some c' ∧ Refines c' (modelRun m ops) := by
  induction ops generalizing c m with
  | nil => exact ⟨rfl, c, rfl, hr⟩
  | cons op ops ih =>
    obtain ⟨c1, hobs, hstep, hr1⟩ := Refines_step hr op
    obtain ⟨ih1, c2, hrun, hr2⟩ := ih hr1
    refine ⟨?_, c2, ?_, hr2⟩
    · show (stepObs c op).bind _ = _
      rw [hobs]
      show (runObs c1 ops).map _ = _
      rw [ih1, Refines_Len hr1]
      rfl
    · show (step c op).bind _ = _
      rw [hstep]
      exact hrun

theorem Refines_New (capacity : Int) (hcap : 1 ≤ capacity) :
    Refines (NewLRUCache capacity : Cache V) (ListModel.New capacity) :=
  ⟨Inv_New capacity, Bounded_New capacity hcap, rfl, rfl⟩

/-- C18 (refinement to a list model): for `capacity ≥ 1` and every sequence of `Set`, `Get`
and `Remove` calls, the implementation started from `NewLRUCache(capacity)` runs to completion
and returns, call by call, the same `Get` results and the same `Len()` as the abstract list
model started from the empty list; the final queue is the boxed image of the model's final
list, which has no repeated key. -/
theorem refines_list_model (capacity : Int) (hcap : 1 ≤ capacity) (ops : List (Op V)) :
    runObs (NewLRUCache capacity) ops = some (modelObs (ListModel.New capacity) ops) ∧
    ∃ c : Cache V, runOps (NewLRUCache capacity) ops = some c ∧
      c.abs = (modelRun (ListModel.New capacity) ops).items ∧
      c.entries = (modelRun (ListModel.New capacity) ops).items.map boxPair ∧
      ((modelRun (ListModel.New capacity) ops).items.map Prod.fst).Nodup ∧
      c.Len = (modelRun (ListModel.New capacity) ops).Len := by
  obtain ⟨hobs, c, hrun, hr⟩ := Refines_run ops (Refines_New (V := V) capacity hcap)
  refine ⟨hobs, c, hrun, hr.2.2.1, ?_, ?_, Refines_Len hr⟩
  · rw [entries_eq_map_abs hr.1, hr.2.2.1]
  · rw [← hr.2.2.1]
    exact abs_nodup hr.1

/-- Witness for C18: capacity 3, `Set(a,1)`, `Set(b,2)`, `Set(c,3)`, `Get(a)`, `Set(d,4)`,
`Get(b)`, `Remove(c)`. -/
theorem refines_list_model_witness :
    runObs (NewLRUCache 3) opsMixed = some (modelObs (ListModel.New 3) opsMixed) ∧
    ∃ c : Cache Int, runOps (NewLRUCache 3) opsMixed = some c ∧
      c.abs = (modelRun (ListModel.New 3) opsMixed).items ∧
      c.entries = (modelRun (ListModel.New 3) opsMixed).items.map boxPair ∧
      ((modelRun (ListModel.New 3) opsMixed).items.map Prod.fst).Nodup ∧
      c.Len = (modelRun (ListModel.New 3) opsMixed).Len :=
  refines_list_model 3 (by decide) opsMixed

/-! ## Interleavings of `Set` -/

/-- Run without interruption, the statements of `Set` compute the sequential `Set`. -/
theorem Set_eq_SetLocked (c : Cache V) (k : String) (v : Any V) :
    c.Set k v = c.SetLocked k v (c.records k) := by
  unfold Cache.Set Cache.SetLocked
  cases c.records k <;> rfl

/-- C17 (lookup outside the mutex): `Set` reads `c.records[key]` on line 39 and locks the
mutex only on line 41.  First run, the test's cache of capacity 6 with `Set("0",0)` in
goroutine 0 and `Set("1",1)` in goroutine 1: goroutine 1 makes its map lookup while goroutine 0
holds the mutex, and both calls finish.  Second run, `Set("k",1)` and `Set("k",2)`: both
lookups miss before either call locks, so both calls push a record; the queue ends with two
records of key `k` and `Len() == 2`, although either sequential order of the two calls leaves
one record. -/
theorem Set_lookup_outside_mutex :
    ((Config.start 6 [("0", Any.val (0 : Int)), ("1", Any.val 1)]).runSchedule
        [0, 0, 1, 0, 0, 1, 1, 1]).map (fun s => (s.lookups, s.pcs, s.cache.Len)) =
      some ([(1, some 0), (0, none)], [SetPc.finished, SetPc.finished], 2) ∧
    ((Config.start 6 [("k", Any.val (1 : Int)), ("k", Any.val 2)]).runSchedule
        [0, 1, 0, 0, 0, 1, 1, 1]).map
        (fun s => (s.lookups, s.pcs, s.cache.Len, s.cache.entries)) =
      some ([(1, none), (0, none)], [SetPc.finished, SetPc.finished], 2,
        [Any.record "k" (Any.val 2), Any.record "k" (Any.val 1)]) ∧
    (runOps (NewLRUCache 6) [Op.set "k" (Any.val (1 : Int)), Op.set "k" (Any.val 2)]).map
        (fun c => (c.Len, c.entries)) = some (1, [Any.record "k" (Any.val 2)]) ∧
    (runOps (NewLRUCache 6) [Op.set "k" (Any.val (2 : Int)), Op.set "k" (Any.val 1)]).map
        (fun c => (c.Len, c.entries)) = some (1, [Any.record "k" (Any.val 1)]) := by
  refine ⟨?_, ?_, ?_, ?_⟩ <;> decide

end LRU
